import Mathlib

/-!
Verification of the data-tetris core.

A shallow embedding, in Lean 4, of the algorithmic core of the repository:
the grid ("pit") occupancy model with its `rows`/`cols` caches, piece
geometry and rotation, gravity and locking (`Pit.drop`), line clearing
(`_cleanup` / `_removeCompletedRows`), the heuristic evaluator
(`getScore`), the placement search (`Game.AI.findBestPosition` /
`findBestPositionRotation`), the shared gravity-interval state of
`Game.Engine._start`, the coordinator's game-over arbitration in
`Game.App._start`, and a small reference-heap model of `Pit.clone` /
`Cell.clone` aliasing.

Sources: `src/js/pit.js`, `src/js/gallery.js` (piece module),
`src/js/cell.js` (cell + `Game.AI`), `src/js/game.js`,
`src/js/app.js`, and the engine module (`src/unnamed/part_001`).

Coordinates: the missing `js/xy.js` file (referenced by `index.html` but
not present in the sources) is modelled from the spec, section 4.1:
an `XY` value is an integer pair `(x, y)` with componentwise arithmetic,
structural equality, and a collision-free key encoding; we therefore use
`ℤ × ℤ` directly, and the JS objects keyed by `xy.toString()` become
`Finset (ℤ × ℤ)` (pit occupancy, where insertion with an existing key
overwrites) and `List (ℤ × ℤ)` (piece cells, iterated in insertion
order).  Cell colour / type / pieceSet data never feeds back into any of
the algorithms below, so occupancy is modelled as bare coordinates.
-/

namespace Game

/-- `XY` from the spec's Geometry component: an integer 2-D vector. -/
abbrev XY : Type := ℤ × ℤ

/-- `Game.WIDTH` from `src/js/game.js`. -/
def WIDTH : ℕ := 10

/-- `Game.DEPTH` from `src/js/game.js`. -/
def DEPTH : ℕ := 16

/-- A piece (`Game.Piece`): its relative cell offsets (the keys of the JS
`cells` map, in insertion order) and its anchor position `xy`.  The
`type` / `pieceSet` / `id` fields play no role in the core algorithms. -/
structure Piece where
  cells : List XY
  xy : XY
deriving DecidableEq, Repr

/-- The pit (`Game.Pit`): occupancy set `cells` (the JS object keyed by
coordinate strings), the per-column height cache `cols` and the per-row
fill-count cache `rows`.  The DOM `node` is not modelled. -/
structure Pit where
  cells : Finset XY
  cols : List ℤ
  rows : List ℕ
deriving DecidableEq

/-- The freshly constructed pit (`new Game.Pit()`): empty occupancy,
`WIDTH` zero column heights, `DEPTH` zero row counters. -/
def emptyPit : Pit :=
  { cells := ∅, cols := List.replicate WIDTH 0, rows := List.replicate DEPTH 0 }

/-- `Game.Piece.prototype.fits` (`src/js/gallery.js`): every absolute cell
`offset + xy` must be inside the horizontal bounds, at non-negative
height (there is no upper bound) and unoccupied in the pit. -/
def Piece.fits (p : Piece) (pit : Pit) : Prop :=
  ∀ c ∈ p.cells,
    0 ≤ c.1 + p.xy.1 ∧ c.1 + p.xy.1 < (WIDTH : ℤ) ∧
    0 ≤ c.2 + p.xy.2 ∧ (c.1 + p.xy.1, c.2 + p.xy.2) ∉ pit.cells

instance (p : Piece) (pit : Pit) : Decidable (p.fits pit) := by
  unfold Piece.fits; infer_instance

/-- Move a piece one row down (`piece.xy = piece.xy.plus(new XY(0, -1))`). -/
def Piece.down (p : Piece) : Piece := { p with xy := (p.xy.1, p.xy.2 - 1) }

/-- Move a piece one row up (`piece.xy = piece.xy.minus(new XY(0, -1))`). -/
def Piece.up (p : Piece) : Piece := { p with xy := (p.xy.1, p.xy.2 + 1) }

/-- An upper bound on the `y` offsets of a piece's cells (0 if none are
positive); used only to size the fuel of the gravity loop. -/
def Piece.maxOffY (p : Piece) : ℤ := p.cells.foldr (fun c a => max c.2 a) 0

/-- Fuel that suffices for the gravity loop to reach its exit condition. -/
def Piece.fuelY (p : Piece) : ℕ := (p.xy.2 + p.maxOffY + 2).toNat

/-- The gravity loop body of `Pit.drop` / `Engine.drop`: starting from a
fitting position, keep moving down while the position one below still
fits.  Structural fuel replaces the JS `while`; `Piece.fuelY` fuel is
enough (proved below) whenever the piece has at least one cell. -/
def fallAux (pit : Pit) : ℕ → Piece → Piece
  | 0, p => p
  | n + 1, p => if (p.down).fits pit then fallAux pit n p.down else p

/-- The resting position computed by the gravity loop of `Pit.drop`
(`while (piece.fits(this)) move down; move up`): from a fitting start
this is the lowest fitting position; from a non-fitting start the loop
body never runs and the piece is moved up once. -/
def gravityRest (pit : Pit) (p : Piece) : Piece :=
  if p.fits pit then fallAux pit p.fuelY p else p.up

/-- The absolute cells a piece occupies (`piece.xy.plus(cell.xy)`). -/
def Piece.absCells (p : Piece) : List XY :=
  p.cells.map (fun c => (c.1 + p.xy.1, c.2 + p.xy.2))

/-- The insertion loop of `Pit.drop`: each absolute cell is stored in
`cells`; if its `y` is below `Game.DEPTH` the row counter is incremented
and the column height raised to at least `y + 1`.  (For `y < 0` or `x`
outside `[0, WIDTH)` the JS writes would land outside the arrays'
index range and be invisible to every later array read; such cells never
occur after a fitting placement, and the model leaves the caches
untouched for them.) -/
def insertCell (pit : Pit) (c : XY) : Pit :=
  { cells := insert c pit.cells,
    rows := if 0 ≤ c.2 ∧ c.2 < (DEPTH : ℤ) then
        pit.rows.set c.2.toNat (pit.rows.getD c.2.toNat 0 + 1)
      else pit.rows,
    cols := if 0 ≤ c.1 ∧ c.1 < (WIDTH : ℤ) ∧ c.2 < (DEPTH : ℤ) ∧ 0 ≤ c.2 then
        pit.cols.set c.1.toNat (max (pit.cols.getD c.1.toNat 0) (c.2 + 1))
      else pit.cols }

/-- Folding the insertion loop over the piece's cells. -/
def insertCells (pit : Pit) (cs : List XY) : Pit := cs.foldl insertCell pit

/-- The state of the pit after the piece has fallen and its cells have
been absorbed — the part of `Pit.drop` before `_cleanup` runs. -/
def Pit.insertPiece (pit : Pit) (p : Piece) : Pit :=
  insertCells pit (gravityRest pit p).absCells

/-- The row-identification scan of `Pit._cleanup`: the indices
`0 ≤ j < DEPTH` with `rows[j] === WIDTH`, in increasing order. -/
def completedRowsList (pit : Pit) : List ℕ :=
  (List.range DEPTH).filter (fun j => pit.rows.getD j 0 = WIDTH)

/-- `Game.Pit.prototype.getCompletedRows`: indices of the `rows` array
whose counter equals `WIDTH`. -/
def Pit.getCompletedRows (pit : Pit) : List ℕ :=
  ((pit.rows.enum).filter (fun e => e.2 = WIDTH)).map (fun e => e.1)

/-- Insert into a descending-sorted list (helper for `sortDesc`). -/
def insertDesc (a : ℕ) : List ℕ → List ℕ
  | [] => [a]
  | b :: l => if b ≤ a then a :: b :: l else b :: insertDesc a l

/-- `completedRows.sort((a, b) => b - a)`: sort descending. -/
def sortDesc (l : List ℕ) : List ℕ := l.foldr insertDesc []

/-- Column heights recomputed from scratch over an occupancy set: for each
index `x` the fold `cols[x] = max(cols[x], y + 1)` over the cells of
column `x`, starting from the zeroed array — i.e. the supremum of
`(y + 1).toNat` over the column (0 if the column is empty). -/
def recomputeCols (len : ℕ) (cells : Finset XY) : List ℤ :=
  (List.range len).map (fun x : ℕ =>
    (((cells.filter (fun c => c.1 = (x : ℤ))).sup (fun c => (c.2 + 1).toNat) : ℕ) : ℤ))

/-- One iteration of the `completedRows.forEach` loop of
`_removeCompletedRows`: delete the cells of row `j`, drop the row's
counter (appending a fresh zero) and zero the `cols` array. -/
def clearRowStep (acc : Pit) (j : ℕ) : Pit :=
  { cells := acc.cells.filter (fun c => c.2 ≠ (j : ℤ)),
    rows := acc.rows.eraseIdx j ++ [0],
    cols := List.replicate acc.cols.length 0 }

/-- `Game.Pit.prototype._removeCompletedRows`: sort the completed rows
top-to-bottom, run the `forEach` loop above over them, then shift every
cell above the lowest completed row down by the total number of removed
rows, rebuilding the cell map (colliding keys overwrite) and recomputing
`cols` from the shifted cells.  With an empty list the JS shift guard
`xy.y > undefined` is false for every cell and nothing changes; the model
returns the pit unchanged in that case (the caller only passes non-empty
lists). -/
def Pit.removeCompletedRows (pit : Pit) (completed : List ℕ) : Pit :=
  let sorted := sortDesc completed
  let afterLoop : Pit := sorted.foldl clearRowStep pit
  match sorted.getLast? with
  | none => pit
  | some m =>
    let k : ℤ := sorted.length
    let shifted : Finset XY := afterLoop.cells.image (fun c =>
      if c.2 > (m : ℤ) then (c.1, c.2 - k) else c)
    { cells := shifted,
      rows := afterLoop.rows,
      cols := recomputeCols afterLoop.cols.length shifted }

/-- `Game.Pit.prototype._cleanup`: count the completed rows, remove them
(immediately, in the logical model — the animation path only delays the
same call), and return the count. -/
def Pit.cleanup (pit : Pit) : ℕ × Pit :=
  let completed := completedRowsList pit
  (completed.length,
   if completed.isEmpty then pit else pit.removeCompletedRows completed)

/-- `Game.Pit.prototype.drop`: let the piece fall, absorb its cells and
run `_cleanup`.  Returns the pair of the JS return value (the count
produced by `_cleanup`) and the resulting pit state. -/
def Pit.drop (pit : Pit) (p : Piece) : ℕ × Pit :=
  (pit.insertPiece p).cleanup

/-- The adjacent-column absolute differences of a height array
(the loop `for i in 0 .. cols.length-2` of `getScore`). -/
def slopes (l : List ℤ) : List ℤ := List.zipWith (fun a b => |a - b|) l l.tail

/-- The `holes` counter of `getScore`: cells whose position one below is
inside the pit (`y - 1 ≥ 0`) and unoccupied. -/
def Pit.holes (pit : Pit) : ℕ :=
  (pit.cells.filter (fun c => 1 ≤ c.2 ∧ (c.1, c.2 - 1) ∉ pit.cells)).card

/-- The `weight` accumulator of `getScore`: the sum of `y + 1` over all
occupied cells. -/
def Pit.weight (pit : Pit) : ℤ := ∑ c ∈ pit.cells, (c.2 + 1)

/-- `Game.Pit.prototype.getScore`:
`20·holes + max + cells + maxslope + slope + weight` (weights `W`, terms
`S` in the source).  `max` is the maximum of the `cols` array (the array
is never empty; entries are never negative, so folding from 0 agrees with
`Math.max`). -/
def Pit.getScore (pit : Pit) : ℤ :=
  20 * pit.holes + pit.cols.foldr max 0 + pit.cells.card +
    (slopes pit.cols).foldr max 0 + (slopes pit.cols).sum + pit.weight

/-- `Game.Piece.prototype.rotate` (`src/js/gallery.js`): with
`sign = (-1, 1)` for `direction > 0` and `(1, -1)` otherwise, every
relative offset `(x, y)` is replaced by `(y·sign.x, x·sign.y)`. -/
def Piece.rotate (p : Piece) (direction : ℤ) : Piece :=
  let sign : ℤ × ℤ := if direction > 0 then (-1, 1) else (1, -1)
  { p with cells := p.cells.map (fun c => (c.2 * sign.1, c.1 * sign.2)) }

/-- `Game.Piece.prototype.center`: anchor at `(WIDTH/2, DEPTH-1)`. -/
def Piece.center (p : Piece) : Piece := { p with xy := ((WIDTH : ℤ) / 2, (DEPTH : ℤ) - 1) }

/-- Rotating clockwise `n` times (the loop `for j in 0..i-1: rotate(1)` in
`findBestPositionRotation` and `Attacker.AI._poll`). -/
def Piece.rotateN (p : Piece) : ℕ → Piece
  | 0 => p
  | n + 1 => (p.rotateN n).rotate 1

/-! ### Piece shape definitions (`Game.Piece.DEF`, `src/js/gallery.js`) -/

/-- Cells of the left set's `s` piece. -/
def shapeS : List XY := [(0, 0), (1, 0), (0, -1), (-1, -1)]

/-- Cells of the `-` piece (same in both sets). -/
def shapeDash : List XY := [(0, 0), (-1, 0)]

/-- Cells of the `t` piece (same in both sets). -/
def shapeT : List XY := [(0, 0), (-1, 0), (1, 0), (0, -1)]

/-- Cells of the left set's `u` piece. -/
def shapeU : List XY := [(0, 0), (-1, 0), (-1, 1), (1, 0), (1, -1)]

/-- Cells of the right set's `o` piece. -/
def shapeO : List XY := [(0, 0), (-1, 0), (0, -1), (-1, -1)]

/-- Cells of the right set's `i` piece. -/
def shapeI : List XY := [(0, 0), (-1, 0), (1, 0), (-2, 0)]

/-! ### The placement search (`Game.AI`, `src/js/cell.js`)

`findBestPosition` clones the pit and the piece, centers the piece, slides
it left while it fits (stepping back right once), then scans rightward:
for every fitting position it simulates a hard drop on a cloned pit and
records the resulting score, keeping the running minimum score and the
list of all tied columns; the JS finally picks `bestPositions.random()`
(`undefined` when the list is empty).  The model returns the running
minimum (`none` standing for the initial `Infinity`) together with the
full tie list, so that statements can quantify over every possible random
outcome.  The JS `while` loops again become fueled recursions. -/

/-- Move a piece one column to the left (`piece.xy.plus(new XY(-1, 0))`). -/
def Piece.leftS (p : Piece) : Piece := { p with xy := (p.xy.1 - 1, p.xy.2) }

/-- Move a piece one column to the right. -/
def Piece.rightS (p : Piece) : Piece := { p with xy := (p.xy.1 + 1, p.xy.2) }

/-- An upper bound on the `x` offsets of a piece's cells. -/
def Piece.maxOffX (p : Piece) : ℤ := p.cells.foldr (fun c a => max c.1 a) 0

/-- A lower bound on the `x` offsets of a piece's cells. -/
def Piece.minOffX (p : Piece) : ℤ := p.cells.foldr (fun c a => min c.1 a) 0

/-- Fuel sufficient for the leftward slide of `findBestPosition`. -/
def Piece.fuelL (p : Piece) : ℕ := (p.xy.1 + p.maxOffX + 2).toNat

/-- Fuel sufficient for the rightward scan of `findBestPosition`. -/
def Piece.fuelR (p : Piece) : ℕ := ((WIDTH : ℤ) - p.xy.1 - p.minOffX + 2).toNat

/-- The leftward slide loop (`while (piece.fits(pit)) move left`). -/
def slideLeftAux (pit : Pit) : ℕ → Piece → Piece
  | 0, p => p
  | n + 1, p => if (p.leftS).fits pit then slideLeftAux pit n p.leftS else p

/-- The left scan of `findBestPosition`: slide left while fitting, then
step back right once; from a non-fitting start the loop body never runs
and the piece just moves right once. -/
def leftmost (pit : Pit) (p : Piece) : Piece :=
  if p.fits pit then slideLeftAux pit p.fuelL p else p.rightS

/-- The rightward scan loop of `findBestPosition`: while the piece fits,
record `(x, score of a simulated drop on a cloned pit)` and move right. -/
def scanAux (pit : Pit) : ℕ → Piece → List (ℤ × ℤ)
  | 0, _ => []
  | n + 1, q =>
    if q.fits pit then (q.xy.1, ((pit.drop q).2.getScore)) :: scanAux pit n q.rightS
    else []

/-- One step of the running-minimum accumulation of `findBestPosition`
(`if (score < bestScore) reset; if (score == bestScore) push`); `none`
plays the role of the initial `Infinity`. -/
def collectStep (acc : Option ℤ × List ℤ) (e : ℤ × ℤ) : Option ℤ × List ℤ :=
  match acc.1 with
  | none => (some e.2, [e.1])
  | some b =>
    if e.2 < b then (some e.2, [e.1])
    else if e.2 = b then (some b, acc.2 ++ [e.1])
    else acc

/-- The running-minimum accumulation over the scanned candidates. -/
def collectBest (l : List (ℤ × ℤ)) : Option ℤ × List ℤ := l.foldl collectStep (none, [])

namespace AI

/-- `Game.AI.findBestPosition`: the pair of the best (minimum) simulated
score (`none` = `Infinity`, i.e. no position fit) and the list of tied
columns from which the JS picks `x` uniformly at random (`undefined`
when the list is empty). -/
def findBestPosition (pit : Pit) (p : Piece) : Option ℤ × List ℤ :=
  let start := leftmost pit p.center
  collectBest (scanAux pit start.fuelR start)

/-- `Infinity`-aware strict comparison (`current.score < bestScore`). -/
def optLT (a b : Option ℤ) : Bool :=
  match a, b with
  | some x, some y => x < y
  | some _, none => true
  | none, _ => false

/-- One step of the accumulation in `findBestPositionRotation`: first the
`<` test resets the best score and the tie list, then the `==` test
pushes the current entry.  An entry is a rotation count together with the
`findBestPosition` result for that rotation. -/
def rotStep (acc : Option ℤ × List (ℕ × List ℤ)) (e : ℕ × Option ℤ × List ℤ) :
    Option ℤ × List (ℕ × List ℤ) :=
  let acc1 := if optLT e.2.1 acc.1 then (e.2.1, ([] : List (ℕ × List ℤ))) else acc
  if e.2.1 = acc1.1 then (acc1.1, acc1.2 ++ [(e.1, e.2.2)]) else acc1

/-- `Game.AI.findBestPositionRotation`: evaluate `findBestPosition` for
0–3 clockwise rotations of a cloned piece and accumulate the entries
achieving the minimum score; the JS picks `bestRotations.random()` and
returns its `x` and `rotation`. -/
def findBestPositionRotation (pit : Pit) (p : Piece) : Option ℤ × List (ℕ × List ℤ) :=
  ((List.range 4).map (fun i => (i, findBestPosition pit (p.rotateN i)))).foldl
    rotStep (none, [])

end AI

/-! ### The shared gravity interval (`Game.Engine._start`, engine module)

`Engine.prototype._start` installs a tick timer with period
`Game.INTERVAL_ENGINE` — a single global from `src/js/game.js`, initially
1000 — and then executes `Game.INTERVAL_ENGINE -= 5`, mutating the global
shared by both engines.  `_stop` clears the timer without restoring the
global.  The model records, per side, the period of the currently
installed timer and the log of all periods ever installed. -/

/-- The two sessions (left / right engine). -/
inductive Side
  | left
  | right
deriving DecidableEq, Repr

/-- The other side. -/
def Side.other : Side → Side
  | .left => .right
  | .right => .left

/-- The timing state shared by the two engines: the global
`Game.INTERVAL_ENGINE` plus each engine's `_interval` timer (carrying the
period it was installed with) and the log of installed periods. -/
structure Timers where
  g : ℤ
  leftInterval : Option ℤ
  rightInterval : Option ℤ
  leftLog : List ℤ
  rightLog : List ℤ
deriving DecidableEq, Repr

/-- The initial timing state (`Game.INTERVAL_ENGINE = 1000`, no timers). -/
def Timers.init : Timers :=
  { g := 1000, leftInterval := none, rightInterval := none, leftLog := [], rightLog := [] }

/-- `Engine.prototype._start` for one side: a no-op if that engine's
timer is already installed; otherwise install a timer with the current
global period and decrement the global by 5. -/
def startEngine (s : Side) (t : Timers) : Timers :=
  match s with
  | .left =>
    if t.leftInterval.isSome then t
    else { t with leftInterval := some t.g, leftLog := t.leftLog ++ [t.g], g := t.g - 5 }
  | .right =>
    if t.rightInterval.isSome then t
    else { t with rightInterval := some t.g, rightLog := t.rightLog ++ [t.g], g := t.g - 5 }

/-- `Engine.prototype._stop` for one side: clear the timer (the global is
not restored). -/
def stopEngine (s : Side) (t : Timers) : Timers :=
  match s with
  | .left => { t with leftInterval := none }
  | .right => { t with rightInterval := none }

/-- A timing-relevant engine operation. -/
inductive TOp
  | start (s : Side)
  | stop (s : Side)
deriving DecidableEq, Repr

/-- Apply one timing operation. -/
def applyTOp (t : Timers) : TOp → Timers
  | .start s => startEngine s t
  | .stop s => stopEngine s t

/-- Run a sequence of timing operations from the initial state. -/
def runTOps (ops : List TOp) : Timers := ops.foldl applyTOp Timers.init

/-- Keep only the operations of one side. -/
def TOp.side : TOp → Side
  | .start s => s
  | .stop s => s

/-! ### The coordinator (`handleGameOver` in `Game.App._start`,
`src/js/app.js`)

`handleGameOver(scoreElementId)` runs only if no game over has been
recorded yet (`!firstGameOver`): it records the notifier, calls
`_setPlaying(false)` on both engines and shows the LOSER overlay on the
notifier's side and the WINNER overlay on the other side.  Because
`firstGameOver` is assigned before the `_setPlaying` calls, the
re-entrant notifications those calls emit hit the guard and do nothing,
so the handler is modelled as a single state transformation.
`_setPlaying(false)` (engine module) sets `playing` to false, stops the
tick timer and the drop timeout, destroys the in-flight piece and resets
`_dropping`. -/

/-- The observable engine state touched by `_setPlaying(false)`. -/
structure EngineFlags where
  playing : Bool
  hasPiece : Bool
  dropping : Bool
  ticking : Bool
deriving DecidableEq, Repr

/-- `_setPlaying(false)` followed by `_stop()`: frozen engine. -/
def freezeEngine (_e : EngineFlags) : EngineFlags :=
  { playing := false, hasPiece := false, dropping := false, ticking := false }

/-- The coordinator state: both engines, the `firstGameOver` latch and
the recorded `(loser, winner)` outcome shown by the overlays. -/
structure AppState where
  left : EngineFlags
  right : EngineFlags
  firstGameOver : Option Side
  outcome : Option (Side × Side)
deriving DecidableEq, Repr

/-- The `handleGameOver` closure of `Game.App._start`. -/
def handleGameOver (st : AppState) (notifier : Side) : AppState :=
  if st.firstGameOver.isSome then st
  else
    { left := freezeEngine st.left, right := freezeEngine st.right,
      firstGameOver := some notifier,
      outcome := some (notifier, notifier.other) }

/-! ### A reference heap for `Pit.clone` / `Cell.clone` aliasing

`Game.Pit.prototype.clone` deep-copies `cols` and `rows` through
`JSON.parse(JSON.stringify(...))` (fresh arrays) and clones every cell
through `Game.Cell.prototype.clone`, which constructs
`new Game.Cell(this.xy, this.type, this.pieceSet)` — a fresh `Cell`
object whose `xy` field holds the *same* `XY` object as the original's
(`XY` objects are mutable: `getScore` decrements `xy.y` on a clone, the
gallery adds 0.5 to components in place).  To state which structure is
shared and which is fresh, cells, `XY` objects and arrays live in
explicit stores addressed by natural-number references. -/

/-- The reference heap: stores for `XY` objects, for the `xy` field of
`Cell` objects, and for arrays, with bump allocators. -/
structure Heap where
  xyv : ℕ → XY
  cellxy : ℕ → ℕ
  arrv : ℕ → List ℤ
  nxtXY : ℕ
  nxtCell : ℕ
  nxtArr : ℕ

/-- A pit as a set of heap references: its cell objects and its `cols` /
`rows` arrays. -/
structure PitRefs where
  cellRefs : List ℕ
  colsRef : ℕ
  rowsRef : ℕ
deriving DecidableEq, Repr

/-- In-place mutation of an `XY` object (e.g. `xy.y--`). -/
def Heap.writeXY (h : Heap) (r : ℕ) (v : XY) : Heap :=
  { h with xyv := Function.update h.xyv r v }

/-- Re-assignment of a cell's `xy` field (`cell.xy = ...`). -/
def Heap.writeCellXY (h : Heap) (c r : ℕ) : Heap :=
  { h with cellxy := Function.update h.cellxy c r }

/-- In-place mutation of an array (e.g. `cols[x] = 0`). -/
def Heap.writeArr (h : Heap) (a : ℕ) (v : List ℤ) : Heap :=
  { h with arrv := Function.update h.arrv a v }

/-- The coordinate currently observed through a cell (`cell.xy`). -/
def Heap.cellPos (h : Heap) (c : ℕ) : XY := h.xyv (h.cellxy c)

/-- `Game.Cell.prototype.clone`: allocate a fresh `Cell` whose `xy` field
holds the same `XY` reference as the original's. -/
def cloneCell (h : Heap) (c : ℕ) : Heap × ℕ :=
  ({ h with cellxy := Function.update h.cellxy h.nxtCell (h.cellxy c),
            nxtCell := h.nxtCell + 1 },
   h.nxtCell)

/-- The cell-cloning loop of `Pit.clone`. -/
def cloneCells (h : Heap) : List ℕ → Heap × List ℕ
  | [] => (h, [])
  | c :: cs =>
    let hc := cloneCell h c
    let rest := cloneCells hc.1 cs
    (rest.1, hc.2 :: rest.2)

/-- Allocate a fresh array holding a copy of the array at `a`
(`JSON.parse(JSON.stringify(arr))`). -/
def copyArr (h : Heap) (a : ℕ) : Heap × ℕ :=
  ({ h with arrv := Function.update h.arrv h.nxtArr (h.arrv a), nxtArr := h.nxtArr + 1 },
   h.nxtArr)

/-- `Game.Pit.prototype.clone`: deep-copy `cols` and `rows`, clone every
cell. -/
def clonePit (h : Heap) (p : PitRefs) : Heap × PitRefs :=
  let hc := copyArr h p.colsRef
  let hr := copyArr hc.1 p.rowsRef
  let cc := cloneCells hr.1 p.cellRefs
  (cc.1, { cellRefs := cc.2, colsRef := hc.2, rowsRef := hr.2 })

/-! ### Well-formedness of the caches and reachability -/

/-- The spec's row-cache invariant: `rows[y]` is the number of occupied
cells with that `y`, for every row index of the pit. -/
def RowsOK (pit : Pit) : Prop :=
  ∀ j < DEPTH, pit.rows.getD j 0 = (pit.cells.filter (fun c => c.2 = (j : ℤ))).card

/-- The spec's column-cache invariant: `cols[x]` is `1 + max occupied y`
in column `x` (`0` if the column is empty); for cells at non-negative `y`
this is the supremum of `(y + 1).toNat` over the column. -/
def ColsOK (pit : Pit) : Prop :=
  ∀ x < WIDTH, pit.cols.getD x 0 =
    (((pit.cells.filter (fun c => c.1 = (x : ℤ))).sup (fun c => (c.2 + 1).toNat) : ℕ) : ℤ)

/-- All occupied cells lie inside the `WIDTH × DEPTH` board. -/
def CellsInBounds (pit : Pit) : Prop :=
  ∀ c ∈ pit.cells, 0 ≤ c.1 ∧ c.1 < (WIDTH : ℤ) ∧ 0 ≤ c.2 ∧ c.2 < (DEPTH : ℤ)

/-- Full well-formedness of a pit state. -/
def WF (pit : Pit) : Prop :=
  pit.rows.length = DEPTH ∧ pit.cols.length = WIDTH ∧
    CellsInBounds pit ∧ RowsOK pit ∧ ColsOK pit

instance (pit : Pit) : Decidable (RowsOK pit) := by
  unfold RowsOK; infer_instance

instance (pit : Pit) : Decidable (ColsOK pit) := by
  unfold ColsOK; infer_instance

instance (pit : Pit) : Decidable (CellsInBounds pit) := by
  unfold CellsInBounds; infer_instance

instance (pit : Pit) : Decidable (WF pit) := by
  unfold WF; infer_instance

/-- States reachable by lock/drop operations from the empty grid — the
quantification used by the cache-consistency claim.  Each step drops a
piece that fits at its starting position (the engine validates every
move, so it only ever locks fitting pieces). -/
inductive Reached0 : Pit → Prop
  | nil : Reached0 emptyPit
  | step (pit : Pit) (p : Piece) (h0 : Reached0 pit) (hfit : p.fits pit) :
      Reached0 (pit.drop p).2

/-- Reachability restricted as in the amended cache-consistency claim:
each dropped piece has distinct cells, comes to rest entirely below the
top of the pit, and each clear removes a contiguous block of rows. -/
inductive ReachedA : Pit → Prop
  | nil : ReachedA emptyPit
  | step (pit : Pit) (p : Piece) (h0 : ReachedA pit) (hfit : p.fits pit)
      (hnd : p.cells.Nodup) (hne : p.cells ≠ [])
      (hbelow : ∀ c ∈ (gravityRest pit p).absCells, c.2 < (DEPTH : ℤ))
      (hcont : ∃ m, completedRowsList (pit.insertPiece p) =
        List.range' m (completedRowsList (pit.insertPiece p)).length) :
      ReachedA (pit.drop p).2

/-! ### Concrete instances used in counterexamples and witnesses -/

/-- The left set's `s` piece at the origin. -/
def pieceS0 : Piece := { cells := shapeS, xy := (0, 0) }

/-- The offset transformation claimed by the spec for `rotate`:
`(x, y) ↦ (y·s, x·s)` (`s = -1` clockwise, `s = +1` counter-clockwise). -/
def rotateSpecFormula (s : ℤ) (c : XY) : XY := (c.2 * s, c.1 * s)

/-- A pit with eight cells in row 0 (columns 0–7). -/
def pitRow0 : Pit :=
  { cells := {(0, 0), (1, 0), (2, 0), (3, 0), (4, 0), (5, 0), (6, 0), (7, 0)},
    cols := [1, 1, 1, 1, 1, 1, 1, 1, 0, 0],
    rows := [8, 0, 0, 0, 0, 0, 0, 0, 0, 0, 0, 0, 0, 0, 0, 0] }

/-- A pit with eight cells in row 1 (columns 0–7) resting over support
cells at `(8,0)` and `(9,0)`. -/
def pitRow1 : Pit :=
  { cells := {(0, 1), (1, 1), (2, 1), (3, 1), (4, 1), (5, 1), (6, 1), (7, 1), (8, 0), (9, 0)},
    cols := [2, 2, 2, 2, 2, 2, 2, 2, 1, 1],
    rows := [2, 8, 0, 0, 0, 0, 0, 0, 0, 0, 0, 0, 0, 0, 0, 0] }

/-- A `-` piece over column 9 (cells at `x = 8, 9`). -/
def dashAt95 : Piece := { cells := shapeDash, xy := (9, 5) }

/-- A pit whose rows 1 and 3 are full in columns 0–8, with two further
cells at `(0,0)` and `(0,2)`: dropping a vertical `i` piece down
column 9 completes rows 1 and 3 but not rows 0 and 2. -/
def c2pit : Pit :=
  { cells := {(0, 1), (1, 1), (2, 1), (3, 1), (4, 1), (5, 1), (6, 1), (7, 1), (8, 1),
              (0, 3), (1, 3), (2, 3), (3, 3), (4, 3), (5, 3), (6, 3), (7, 3), (8, 3),
              (0, 0), (0, 2)},
    cols := [4, 4, 4, 4, 4, 4, 4, 4, 4, 0],
    rows := [1, 9, 1, 9, 0, 0, 0, 0, 0, 0, 0, 0, 0, 0, 0, 0] }

/-- A vertical `i` piece (the right set's `i` rotated clockwise once)
above column 9. -/
def c2piece : Piece := (Piece.mk shapeI (9, 8)).rotateN 1

/-- A vertical domino (the `-` piece rotated) above column 0, spawning
high enough to land on a 16-cell stack. -/
def vDom : Piece := { cells := [(0, 0), (0, -1)], xy := (0, 17) }

/-- The pit after `n` locks of `vDom` into column 0 of the empty pit. -/
def c3state : ℕ → Pit
  | 0 => emptyPit
  | n + 1 => ((c3state n).drop vDom).2

/-- Grid A of the hole-monotonicity counterexample: cells `(0,1)` and
`(0,3)`, caches derived from the occupancy. -/
def c6A : Pit :=
  { cells := {(0, 1), (0, 3)},
    cols := recomputeCols WIDTH {(0, 1), (0, 3)},
    rows := [0, 1, 0, 1, 0, 0, 0, 0, 0, 0, 0, 0, 0, 0, 0, 0] }

/-- Grid B of the hole-monotonicity counterexample: grid A with the cell
`(0,1)` removed — one additional hole under the cell `(0,3)`. -/
def c6B : Pit :=
  { cells := {((0 : ℤ), (3 : ℤ))},
    cols := recomputeCols WIDTH {((0 : ℤ), (3 : ℤ))},
    rows := [0, 0, 0, 1, 0, 0, 0, 0, 0, 0, 0, 0, 0, 0, 0, 0] }

/-- Witness grid for the amended hole claim: cells `(0,0)` and `(0,1)`. -/
def c6A2 : Pit :=
  { cells := {(0, 0), (0, 1)},
    cols := recomputeCols WIDTH {(0, 0), (0, 1)},
    rows := [1, 1, 0, 0, 0, 0, 0, 0, 0, 0, 0, 0, 0, 0, 0, 0] }

/-- Witness grid for the amended hole claim: only the cell `(0,1)`. -/
def c6B2 : Pit :=
  { cells := {((0 : ℤ), (1 : ℤ))},
    cols := recomputeCols WIDTH {((0 : ℤ), (1 : ℤ))},
    rows := [0, 1, 0, 0, 0, 0, 0, 0, 0, 0, 0, 0, 0, 0, 0, 0] }

/-- A pit whose top row (y = 15) is completely occupied: the centered
spawn position of every piece collides. -/
def pitTopFull : Pit :=
  { cells := {(0, 15), (1, 15), (2, 15), (3, 15), (4, 15),
              (5, 15), (6, 15), (7, 15), (8, 15), (9, 15)},
    cols := [16, 16, 16, 16, 16, 16, 16, 16, 16, 16],
    rows := [0, 0, 0, 0, 0, 0, 0, 0, 0, 0, 0, 0, 0, 0, 0, 10] }

/-- A `-` piece (anchor irrelevant: the search re-centers it). -/
def dashPiece : Piece := { cells := shapeDash, xy := (0, 0) }

/-- A coordinator state with both engines running. -/
def appStart : AppState :=
  { left := { playing := true, hasPiece := true, dropping := false, ticking := true },
    right := { playing := true, hasPiece := true, dropping := false, ticking := true },
    firstGameOver := none, outcome := none }

/-- A one-cell heap: `XY` object 0 holds `(1,2)`, cell 0 references it,
arrays 0 and 1 are the pit's `cols`/`rows`. -/
def heap0 : Heap :=
  { xyv := fun r => if r = 0 then (1, 2) else (0, 0),
    cellxy := fun _ => 0,
    arrv := fun _ => [],
    nxtXY := 1, nxtCell := 1, nxtArr := 2 }

/-- The pit owning cell 0 and arrays 0 and 1 in `heap0`. -/
def pitRefs0 : PitRefs := { cellRefs := [0], colsRef := 0, rowsRef := 1 }

/-! ## Theorems -/

/-! ### C8 — the rotation transformation -/

/-- C8, counterexample.  The claim states that `rotate(direction)`
replaces each offset `(x, y)` by `(y·s, x·s)` with `s = -1` for the
clockwise direction (`direction > 0` per the source) and `s = +1` for
counter-clockwise.  On the `s` piece the code's result differs from that
formula in both directions (even compared as sets of offsets): the
claimed map is a reflection, not a rotation. -/
theorem c8_counterexample :
    (pieceS0.rotate 1).cells.toFinset ≠
      (pieceS0.cells.map (rotateSpecFormula (-1))).toFinset ∧
    (pieceS0.rotate (-1)).cells.toFinset ≠
      (pieceS0.cells.map (rotateSpecFormula 1)).toFinset := by
  decide

/-- C8, amended.  `rotate(direction)` replaces each relative offset
`(x, y)` by `(-y, x)` when `direction > 0` and by `(y, -x)` otherwise;
each of these is a proper 90° rotation about the origin cell: it
preserves the squared norm of every offset and applying it twice negates
the offset. -/
theorem c8_amended (p : Piece) (d : ℤ) :
    (p.rotate d).cells =
      p.cells.map (fun c => if d > 0 then (-c.2, c.1) else (c.2, -c.1)) ∧
    (∀ c : XY, (if d > 0 then ((-c.2, c.1) : XY) else (c.2, -c.1)).1 ^ 2 +
        (if d > 0 then ((-c.2, c.1) : XY) else (c.2, -c.1)).2 ^ 2 = c.1 ^ 2 + c.2 ^ 2) ∧
    ((p.rotate d).rotate d).cells = p.cells.map (fun c => (-c.1, -c.2)) := by
  refine ⟨?_, ?_, ?_⟩
  · by_cases hd : d > 0 <;>
      simp [Piece.rotate, hd]
  · intro c
    by_cases hd : d > 0 <;> simp [hd] <;> ring
  · have hneg : ∀ s : ℤ, s = 1 ∨ s = -1 →
        ((fun c : XY => (c.2 * -s, c.1 * s)) ∘ fun c : XY => (c.2 * -s, c.1 * s)) =
          fun c : XY => (-c.1, -c.2) := by
      rintro s (rfl | rfl) <;> (funext c; cases c; simp)
    by_cases hd : d > 0
    · simp only [Piece.rotate, hd, if_pos, ite_true, List.map_map]
      have h1 := hneg 1 (Or.inl rfl)
      simp only [neg_one_mul, mul_one, mul_neg_one, neg_neg] at h1 ⊢
      rw [h1]
    · simp only [Piece.rotate, hd, if_neg, ite_false, List.map_map]
      have h1 := hneg (-1) (Or.inr rfl)
      simp only [neg_one_mul, mul_one, mul_neg_one, neg_neg] at h1 ⊢
      rw [h1]

/-! ### C10 — rotation is reverted by the opposite rotation -/

/-- C10.  Rotation is self-inverse over the relative offsets: rotating
clockwise then counter-clockwise restores the piece exactly (this is the
property `Engine.rotate` relies on when it reverts a rejected rotation by
`this._piece.rotate(-1)`), and four clockwise rotations are the
identity. -/
theorem c10_rotation_self_inverse (p : Piece) :
    (p.rotate 1).rotate (-1) = p ∧
    (((p.rotate 1).rotate 1).rotate 1).rotate 1 = p := by
  obtain ⟨cells, xy⟩ := p
  constructor
  · simp only [Piece.rotate, List.map_map]
    norm_num
    have h : ((fun c : XY => (c.2, -c.1)) ∘ fun c : XY => (-c.2, c.1)) = id := by
      funext c; cases c; simp
    rw [h, List.map_id]
  · simp only [Piece.rotate, List.map_map]
    norm_num
    have h : ((fun c : XY => (-c.2, c.1)) ∘ ((fun c : XY => (-c.2, c.1)) ∘
        ((fun c : XY => (-c.2, c.1)) ∘ fun c : XY => (-c.2, c.1)))) = id := by
      funext c; cases c; simp
    rw [h, List.map_id]

/-! ### C1 — what `Pit.drop` returns -/

/-- C1, counterexample.  The claim states that `Pit.drop` returns the
sorted list of the cleared row indices.  It returns a bare count: locking
a `-` piece into `pitRow0` clears exactly row 0, locking it into
`pitRow1` clears exactly row 1, yet both calls return the same value `1`
— the return value cannot be the list of cleared row indices. -/
theorem c1_counterexample :
    (pitRow0.drop dashAt95).1 = 1 ∧ (pitRow1.drop dashAt95).1 = 1 ∧
    (pitRow0.insertPiece dashAt95).getCompletedRows = [0] ∧
    (pitRow1.insertPiece dashAt95).getCompletedRows = [1] ∧
    ([0] : List ℕ) ≠ [1] := by
  refine ⟨by decide, by decide, by decide, by decide, by decide⟩

/-- Helper for C1: the `enumFrom`-based row scan of `getCompletedRows`
agrees with an index scan over `range'`. -/
theorem enum_filter_full (l : List ℕ) :
    ∀ n, ((l.enumFrom n).filter (fun e => e.2 = WIDTH)).map Prod.fst =
      (List.range' n l.length).filter (fun j => l.getD (j - n) 0 = WIDTH) := by
  induction l with
  | nil => simp
  | cons a t ih =>
    intro n
    show (((n, a) :: t.enumFrom (n + 1)).filter (fun e => e.2 = WIDTH)).map Prod.fst =
      ((n :: List.range' (n + 1) t.length).filter (fun j => (a :: t).getD (j - n) 0 = WIDTH))
    rw [List.filter_cons, List.filter_cons]
    have htail : (List.range' (n + 1) t.length).filter
          (fun j => (a :: t).getD (j - n) 0 = WIDTH)
        = (List.range' (n + 1) t.length).filter (fun j => t.getD (j - (n + 1)) 0 = WIDTH) := by
      apply List.filter_congr
      intro j hj
      obtain ⟨i, hi, hj⟩ := List.mem_range'.mp hj
      have hji : j - n = (j - (n + 1)) + 1 := by omega
      rw [hji]
      simp
    rw [htail, ← ih (n + 1)]
    by_cases hc : a = WIDTH
    · simp [hc]
    · simp [hc]

/-- Helper for C1: on a pit whose `rows` array has the standard `DEPTH`
length, the source's `getCompletedRows` computes exactly the rows that
`_cleanup` identifies and clears. -/
theorem getCompletedRows_eq (pit : Pit) (h : pit.rows.length = DEPTH) :
    pit.getCompletedRows = completedRowsList pit := by
  unfold Pit.getCompletedRows completedRowsList
  have h0 : pit.rows.enum = pit.rows.enumFrom 0 := rfl
  rw [h0, enum_filter_full pit.rows 0, List.range_eq_range', h]
  simp

/-- Helper for C1: the list of completed rows is sorted strictly
increasingly. -/
theorem completedRowsList_sorted (pit : Pit) : (completedRowsList pit).Sorted (· < ·) := by
  unfold completedRowsList
  exact (List.pairwise_lt_range DEPTH).filter _

/-- Inserting a cell never changes the length of the `rows` array. -/
theorem insertCell_rows_length (pit : Pit) (c : XY) :
    (insertCell pit c).rows.length = pit.rows.length := by
  unfold insertCell
  dsimp only
  split <;> simp

/-- Inserting any cells never changes the length of the `rows` array. -/
theorem insertCells_rows_length (cs : List XY) :
    ∀ pit : Pit, (insertCells pit cs).rows.length = pit.rows.length := by
  induction cs with
  | nil => intro pit; rfl
  | cons c t ih =>
    intro pit
    show (insertCells (insertCell pit c) t).rows.length = pit.rows.length
    rw [ih, insertCell_rows_length]

/-- C1, amended.  `Pit.drop` returns the *number* of rows completed by
the lock — the length of the (sorted, possibly empty) list of completed
row indices that `getCompletedRows` reports on the post-insertion state
and that the clearing step removes. -/
theorem c1_amended (pit : Pit) (p : Piece) (h : pit.rows.length = DEPTH) :
    (pit.drop p).1 = ((pit.insertPiece p).getCompletedRows).length ∧
    ((pit.insertPiece p).getCompletedRows).Sorted (· < ·) := by
  have hlen : (pit.insertPiece p).rows.length = DEPTH := by
    unfold Pit.insertPiece
    rw [insertCells_rows_length]
    exact h
  rw [getCompletedRows_eq _ hlen]
  exact ⟨rfl, completedRowsList_sorted _⟩

/-- C1, witness for the amended theorem at `pitRow0` and the `-` piece. -/
theorem c1_witness :
    pitRow0.rows.length = DEPTH ∧
    ((pitRow0.drop dashAt95).1 = ((pitRow0.insertPiece dashAt95).getCompletedRows).length ∧
      ((pitRow0.insertPiece dashAt95).getCompletedRows).Sorted (· < ·)) :=
  ⟨by decide, c1_amended pitRow0 dashAt95 (by decide)⟩

/-! ### C4 — the gravity cadence is coupled through a shared global -/

/-- C4, counterexample.  The claim states that no operation of one
session changes the state determining the other session's tick interval.
But `Engine._start` executes `Game.INTERVAL_ENGINE -= 5` on the global
shared by both engines: if the left engine starts a piece before the
right engine's first start, the right engine's timer is installed with
period 995 instead of the 1000 it gets when running alone. -/
theorem c4_counterexample :
    (runTOps [TOp.start .left, TOp.start .right]).rightLog = [995] ∧
    (runTOps (([TOp.start .left, TOp.start .right]).filter
      (fun op => op.side = Side.right))).rightLog = [1000] ∧
    (runTOps [TOp.start .left, TOp.start .right]).rightLog ≠
      (runTOps (([TOp.start .left, TOp.start .right]).filter
        (fun op => op.side = Side.right))).rightLog := by
  refine ⟨by decide, by decide, by decide⟩

/-- Helper for C4: the shared-global invariant, over any start state. -/
theorem timers_g_invariant (ops : List TOp) :
    ∀ t : Timers, t.g = 1000 - 5 * ((t.leftLog.length : ℤ) + t.rightLog.length) →
      (ops.foldl applyTOp t).g =
        1000 - 5 * (((ops.foldl applyTOp t).leftLog.length : ℤ)
          + ((ops.foldl applyTOp t).rightLog.length)) := by
  induction ops with
  | nil => intro t ht; exact ht
  | cons op rest ih =>
    intro t ht
    refine ih (applyTOp t op) ?_
    rcases op with s | s
    · rcases s with _ | _ <;>
        · simp only [applyTOp, startEngine]
          split
          · exact ht
          · simp only [List.length_append, List.length_cons, List.length_nil]
            push_cast
            omega
    · rcases s with _ | _ <;> simpa [applyTOp, stopEngine] using ht

/-- C4, amended.  The tick period of every newly started fall is read
from the single shared global `Game.INTERVAL_ENGINE`, and every effective
`_start` of *either* session decrements that global by 5: after any
sequence of engine start/stop operations the global equals
`1000 - 5 × (total number of installed timers across both sessions)`, so
one session's piece starts do shift the cadence of the other's later
falls. -/
theorem c4_amended (ops : List TOp) :
    (runTOps ops).g =
      1000 - 5 * (((runTOps ops).leftLog.length : ℤ) + (runTOps ops).rightLog.length) :=
  timers_g_invariant ops Timers.init (by decide)

/-! ### C5 — the first game-over notification is authoritative -/

/-- Helper for C5: once a first notification is recorded, every further
notification is a no-op. -/
theorem foldl_handleGameOver_of_some (rest : List Side) :
    ∀ st : AppState, st.firstGameOver.isSome → rest.foldl handleGameOver st = st := by
  induction rest with
  | nil => intro st _; rfl
  | cons s t ih =>
    intro st h
    show t.foldl handleGameOver (handleGameOver st s) = st
    rw [show handleGameOver st s = st by simp [handleGameOver, h]]
    exact ih st h

/-- C5.  The coordinator's first `GameOver` notification is
authoritative: from any state with no recorded notification, the first
notification freezes *both* engines (the non-terminated side's `playing`
flag is forced to `false` whatever its state was), records the notifier
as loser and the other side as winner, and any sequence of later or
repeated notifications leaves the resulting state entirely unchanged. -/
theorem c5_first_gameover_authoritative (st : AppState) (s : Side) (rest : List Side)
    (h : st.firstGameOver = none) :
    (handleGameOver st s).left.playing = false ∧
    (handleGameOver st s).right.playing = false ∧
    (handleGameOver st s).firstGameOver = some s ∧
    (handleGameOver st s).outcome = some (s, s.other) ∧
    rest.foldl handleGameOver (handleGameOver st s) = handleGameOver st s := by
  have h1 : handleGameOver st s =
      { left := freezeEngine st.left, right := freezeEngine st.right,
        firstGameOver := some s, outcome := some (s, s.other) } := by
    simp [handleGameOver, h]
  refine ⟨by rw [h1]; rfl, by rw [h1]; rfl, by rw [h1], by rw [h1], ?_⟩
  exact foldl_handleGameOver_of_some rest _ (by rw [h1]; rfl)

/-- C5, witness: the left engine loses first while both engines are still
running; the repeated notifications `[right, left]` change nothing. -/
theorem c5_witness :
    appStart.firstGameOver = none ∧
    ((handleGameOver appStart .left).left.playing = false ∧
     (handleGameOver appStart .left).right.playing = false ∧
     (handleGameOver appStart .left).firstGameOver = some .left ∧
     (handleGameOver appStart .left).outcome = some (.left, Side.other .left) ∧
     ([Side.right, Side.left]).foldl handleGameOver (handleGameOver appStart .left) =
       handleGameOver appStart .left) :=
  ⟨rfl, c5_first_gameover_authoritative appStart .left [Side.right, Side.left] rfl⟩

/-! ### C3 — cache consistency on reachable states (counterexample) -/

set_option maxRecDepth 8000

/-- C3, counterexample.  Nine locks of a vertical domino into column 0 of
the empty pit are a sequence of drop operations from the empty grid (each
piece fits where the engine releases it), but the ninth piece comes to
rest at `y = 16, 17` — above `Game.DEPTH` — and the insertion loop of
`drop` skips the cache update for such cells (`if (xy.y < Game.DEPTH)`).
The resulting reachable state has `cols[0] = 16` while the occupancy of
column 0 reaches `y = 17`, so `cols[0]` is not `1 + max occupied y = 18`:
the column cache is not recomputable from the occupancy map. -/
theorem c3_counterexample :
    Reached0 (c3state 9) ∧
    (c3state 9).cols.getD 0 0 = 16 ∧
    ((((c3state 9).cells.filter (fun c => c.1 = (0 : ℤ))).sup
      (fun c => (c.2 + 1).toNat) : ℕ) : ℤ) = 18 ∧
    ¬ ColsOK (c3state 9) := by
  have h0 : Reached0 (c3state 0) := Reached0.nil
  have h1 : Reached0 (c3state 1) := Reached0.step _ _ h0 (by decide)
  have h2 : Reached0 (c3state 2) := Reached0.step _ _ h1 (by decide)
  have h3 : Reached0 (c3state 3) := Reached0.step _ _ h2 (by decide)
  have h4 : Reached0 (c3state 4) := Reached0.step _ _ h3 (by decide)
  have h5 : Reached0 (c3state 5) := Reached0.step _ _ h4 (by decide)
  have h6 : Reached0 (c3state 6) := Reached0.step _ _ h5 (by decide)
  have h7 : Reached0 (c3state 7) := Reached0.step _ _ h6 (by decide)
  have h8 : Reached0 (c3state 8) := Reached0.step _ _ h7 (by decide)
  exact ⟨Reached0.step _ _ h8 (by decide), by decide, by decide, by decide⟩

/-! ### C6 — score monotonicity in holes -/

/-- C6, counterexample.  Grids `c6A` (cells `(0,1)`, `(0,3)`) and `c6B`
(cell `(0,3)` only) are identical except that `c6B` has one additional
hole: the empty cell `(0,1)` with the occupied cell `(0,3)` above it in
the same column.  The claim says `c6B` must score strictly higher, but
`getScore` only counts a cell whose *immediate* lower neighbour is empty,
so removing `(0,1)` creates no new counted hole while losing the cell and
weight contributions: `c6B` scores 37 against `c6A`'s 60. -/
theorem c6_counterexample :
    c6B.cells = c6A.cells.erase (0, 1) ∧
    ((0 : ℤ), (1 : ℤ)) ∉ c6B.cells ∧ ((0 : ℤ), (3 : ℤ)) ∈ c6B.cells ∧
    c6A.cols = recomputeCols WIDTH c6A.cells ∧
    c6B.cols = recomputeCols WIDTH c6B.cells ∧
    c6B.getScore = 37 ∧ c6A.getScore = 60 ∧
    c6B.getScore < c6A.getScore := by
  refine ⟨by decide, by decide, by decide, by decide, by decide, by decide, by decide, by decide⟩

/-- Helper for C6: erasing a covered cell does not change the recomputed
column heights. -/
theorem cols_erase_eq (A : Finset XY) (x y : ℤ)
    (habove : (x, y + 1) ∈ A) :
    recomputeCols WIDTH (A.erase (x, y)) = recomputeCols WIDTH A := by
  unfold recomputeCols
  apply List.map_congr_left
  intro x' _
  congr 1
  by_cases hx : x = (x' : ℤ)
  · rw [← hx]
    apply le_antisymm
    · exact Finset.sup_mono (Finset.filter_subset_filter _ (Finset.erase_subset _ _))
    · apply Finset.sup_le
      intro w hw
      rw [Finset.mem_filter] at hw
      by_cases hwc : w = (x, y)
      · have hb : ((x, y + 1) : XY) ∈ (A.erase (x, y)).filter (fun c => c.1 = x) := by
          rw [Finset.mem_filter, Finset.mem_erase]
          refine ⟨⟨?_, habove⟩, rfl⟩
          simp [Prod.ext_iff]
        have hup := @Finset.le_sup ℕ XY _ _ ((A.erase (x, y)).filter (fun c => c.1 = x))
          (fun c => (c.2 + 1).toNat) ((x, y + 1) : XY) hb
        refine le_trans ?_ hup
        subst hwc
        simp only
        omega
      · have hb : w ∈ (A.erase (x, y)).filter (fun c => c.1 = x) :=
          Finset.mem_filter.mpr ⟨Finset.mem_erase.mpr ⟨hwc, hw.1⟩, hw.2⟩
        exact @Finset.le_sup ℕ XY _ _ ((A.erase (x, y)).filter (fun c => c.1 = x))
          (fun c => (c.2 + 1).toNat) w hb
  · rw [Finset.filter_erase, Finset.erase_eq_of_not_mem]
    intro hc
    rw [Finset.mem_filter] at hc
    exact hx (by simpa using hc.2)

/-- Helper for C6: removing a supported, covered cell creates exactly one
new hole (the cell directly above it) and destroys none. -/
theorem holes_erase (A B : Pit) (x y : ℤ)
    (hmem : (x, y) ∈ A.cells)
    (habove : (x, y + 1) ∈ A.cells)
    (hbelow : y = 0 ∨ (x, y - 1) ∈ A.cells)
    (hy0 : 0 ≤ y)
    (hB : B.cells = A.cells.erase (x, y)) :
    B.holes = A.holes + 1 := by
  unfold Pit.holes
  rw [hB]
  have hAkey : (x, y) ∉ A.cells.filter (fun c => 1 ≤ c.2 ∧ (c.1, c.2 - 1) ∉ A.cells) := by
    rw [Finset.mem_filter]
    rintro ⟨-, h1, h2⟩
    rcases hbelow with h | h
    · omega
    · exact h2 h
  have habf : (x, y + 1) ∉ A.cells.filter
      (fun c => 1 ≤ c.2 ∧ (c.1, c.2 - 1) ∉ A.cells) := by
    rw [Finset.mem_filter]
    rintro ⟨-, -, h2⟩
    exact h2 (by simpa using hmem)
  have hstep : A.cells.filter (fun c => 1 ≤ c.2 ∧ (c.1, c.2 - 1) ∉ A.cells.erase (x, y)) =
      insert (x, y + 1) (A.cells.filter (fun c => 1 ≤ c.2 ∧ (c.1, c.2 - 1) ∉ A.cells)) := by
    ext w
    rw [Finset.mem_filter, Finset.mem_insert, Finset.mem_filter]
    constructor
    · rintro ⟨hwA, h1, h2⟩
      by_cases he : (w.1, w.2 - 1) = (x, y)
      · left
        have e1 : w.1 = x := congrArg Prod.fst he
        have e2 : w.2 - 1 = y := congrArg Prod.snd he
        rw [Prod.ext_iff]
        exact ⟨e1, by omega⟩
      · exact Or.inr ⟨hwA, h1, fun hmemA => h2 (Finset.mem_erase.mpr ⟨he, hmemA⟩)⟩
    · rintro (rfl | ⟨hwA, h1, h2⟩)
      · refine ⟨habove, by omega, fun hmemE => ?_⟩
        have hne := (Finset.mem_erase.mp hmemE).1
        simp only [add_sub_cancel_right] at hne
        exact hne rfl
      · exact ⟨hwA, h1, fun hmemE => h2 (Finset.mem_erase.mp hmemE).2⟩
  rw [Finset.filter_erase, hstep, Finset.erase_insert_of_ne, Finset.erase_eq_of_not_mem hAkey,
    Finset.card_insert_of_not_mem habf]
  intro he
  have h2 := congrArg Prod.snd he
  simp only at h2
  omega

/-- C6, amended.  For two grids identical except that one cell — occupied
in grid A, empty in grid B — is removed, where the cell directly above it
is occupied, the cell directly below it is occupied (or the cell sits on
the floor), the cell's height is at most 17, and both grids carry
column caches derived from their occupancy: the grid with the additional
hole scores strictly higher, because the hole weight 20 exceeds the
removed cell's own contribution `1 + (y+1) ≤ 19` to the cell-count and
weight terms, while the column-derived terms are unchanged.  (As stated,
with an arbitrary hole — the covering cell not directly above, or the
removed cell itself hovering over a hole, or a tall stack being
flattened — the claim is false; see the counterexample.) -/
theorem c6_amended (A B : Pit) (x y : ℤ)
    (hmem : (x, y) ∈ A.cells)
    (habove : (x, y + 1) ∈ A.cells)
    (hbelow : y = 0 ∨ (x, y - 1) ∈ A.cells)
    (hy0 : 0 ≤ y) (hy17 : y ≤ 17)
    (hB : B.cells = A.cells.erase (x, y))
    (hAc : A.cols = recomputeCols WIDTH A.cells)
    (hBc : B.cols = recomputeCols WIDTH B.cells) :
    A.getScore < B.getScore := by
  have hcols : B.cols = A.cols := by
    rw [hAc, hBc, hB]
    exact cols_erase_eq A.cells x y habove
  have hholes : B.holes = A.holes + 1 := holes_erase A B x y hmem habove hbelow hy0 hB
  have hcard : (B.cells.card : ℤ) = (A.cells.card : ℤ) - 1 := by
    rw [hB, Finset.card_erase_of_mem hmem]
    have h1 : 1 ≤ A.cells.card := Finset.card_pos.mpr ⟨_, hmem⟩
    push_cast [Nat.cast_sub h1]
    ring
  have hweight : B.weight = A.weight - (y + 1) := by
    unfold Pit.weight
    rw [hB]
    have hs := Finset.sum_erase_add A.cells (fun c => c.2 + 1) hmem
    simp only at hs
    omega
  unfold Pit.getScore
  rw [hcols, hholes, hweight, hcard]
  push_cast
  omega

/-- C6, witness for the amended theorem: removing the supported, covered
cell `(0,0)` under `(0,1)` raises the score from 11 to 29. -/
theorem c6_witness :
    ((0 : ℤ), (0 : ℤ)) ∈ c6A2.cells ∧ c6A2.getScore < c6B2.getScore :=
  ⟨by decide, c6_amended c6A2 c6B2 0 0 (by decide) (by decide) (Or.inl rfl)
    (by decide) (by decide) (by decide) rfl rfl⟩

/-! ### C7 — the search only returns fitting placements -/

/-- The leftward slide changes neither the cell offsets nor the height. -/
theorem slideLeftAux_cells_y (pit : Pit) :
    ∀ (n : ℕ) (q : Piece), (slideLeftAux pit n q).cells = q.cells ∧
      (slideLeftAux pit n q).xy.2 = q.xy.2 := by
  intro n
  induction n with
  | zero => intro q; exact ⟨rfl, rfl⟩
  | succ n ih =>
    intro q
    rw [show slideLeftAux pit (n + 1) q =
      (if (q.leftS).fits pit then slideLeftAux pit n q.leftS else q) from rfl]
    by_cases h : (q.leftS).fits pit
    · rw [if_pos h]
      exact ⟨(ih q.leftS).1, (ih q.leftS).2⟩
    · rw [if_neg h]
      exact ⟨rfl, rfl⟩

/-- The leftward slide only ever stops at fitting positions when it
starts from one. -/
theorem slideLeftAux_fits (pit : Pit) :
    ∀ (n : ℕ) (q : Piece), q.fits pit → (slideLeftAux pit n q).fits pit := by
  intro n
  induction n with
  | zero => intro q h; exact h
  | succ n ih =>
    intro q h
    show (if (q.leftS).fits pit then slideLeftAux pit n q.leftS else q).fits pit
    by_cases hl : (q.leftS).fits pit
    · simp only [hl, if_pos]; exact ih _ hl
    · simp only [hl, if_neg, not_false_iff]; exact h

/-- Every pair recorded by the rightward scan is a fitting column at the
scan height. -/
theorem scanAux_mem_fits (pit : Pit) :
    ∀ (n : ℕ) (q : Piece), ∀ e ∈ scanAux pit n q,
      Piece.fits { cells := q.cells, xy := (e.1, q.xy.2) } pit := by
  intro n
  induction n with
  | zero => intro q e he; simp [scanAux] at he
  | succ n ih =>
    intro q e he
    rw [show scanAux pit (n + 1) q =
        (if q.fits pit then (q.xy.1, ((pit.drop q).2.getScore)) :: scanAux pit n q.rightS
         else []) from rfl] at he
    by_cases h : q.fits pit
    · rw [if_pos h] at he
      rcases List.mem_cons.mp he with rfl | htail
      · have : ({ cells := q.cells, xy := ((q.xy.1, ((pit.drop q).2.getScore)).1, q.xy.2) } :
            Piece) = q := rfl
        rw [this]
        exact h
      · have := ih q.rightS e htail
        exact this
    · rw [if_neg h] at he
      simp at he

/-- Positions accumulated by the running minimum all come from the
scanned candidate list. -/
theorem collectStep_positions (l : List (ℤ × ℤ)) :
    ∀ (acc : Option ℤ × List ℤ) (x : ℤ), x ∈ (l.foldl collectStep acc).2 →
      x ∈ acc.2 ∨ x ∈ l.map Prod.fst := by
  induction l with
  | nil => intro acc x hx; exact Or.inl hx
  | cons e t ih =>
    intro acc x hx
    rcases ih (collectStep acc e) x hx with h | h
    · unfold collectStep at h
      rcases hacc : acc.1 with _ | b
      · rw [hacc] at h
        simp at h
        exact Or.inr (by simp [h])
      · rw [hacc] at h
        dsimp only at h
        by_cases h1 : e.2 < b
        · rw [if_pos h1] at h
          simp at h
          exact Or.inr (by simp [h])
        · rw [if_neg h1] at h
          by_cases h2 : e.2 = b
          · rw [if_pos h2] at h
            simp only at h
            rcases List.mem_append.mp h with h3 | h3
            · exact Or.inl h3
            · simp at h3
              exact Or.inr (by simp [h3])
          · rw [if_neg h2] at h
            exact Or.inl h
    · exact Or.inr (List.mem_cons_of_mem _ h)

/-- The accumulated position list never becomes empty again. -/
theorem collectStep_ne_nil (l : List (ℤ × ℤ)) :
    ∀ acc : Option ℤ × List ℤ, (∃ b, acc.1 = some b) → acc.2 ≠ [] →
      (l.foldl collectStep acc).2 ≠ [] := by
  induction l with
  | nil => intro acc _ h2; exact h2
  | cons e t ih =>
    intro acc h1 h2
    obtain ⟨b, hb⟩ := h1
    apply ih (collectStep acc e)
    · unfold collectStep
      rw [hb]
      dsimp only
      by_cases hlt : e.2 < b
      · rw [if_pos hlt]; exact ⟨_, rfl⟩
      · rw [if_neg hlt]
        by_cases heq : e.2 = b
        · rw [if_pos heq]; exact ⟨_, rfl⟩
        · rw [if_neg heq]; exact ⟨_, hb⟩
    · unfold collectStep
      rw [hb]
      dsimp only
      by_cases hlt : e.2 < b
      · rw [if_pos hlt]; simp
      · rw [if_neg hlt]
        by_cases heq : e.2 = b
        · rw [if_pos heq]; simp
        · rw [if_neg heq]; exact h2

/-- Helper for C7: every column that `findBestPosition` can return fits
the piece at the spawn height. -/
theorem findBestPosition_mem_fits (pit : Pit) (q : Piece) :
    ∀ x ∈ (AI.findBestPosition pit q).2,
      Piece.fits { cells := q.cells, xy := (x, (DEPTH : ℤ) - 1) } pit := by
  intro x hx
  unfold AI.findBestPosition at hx
  rcases collectStep_positions _ _ _ hx with h | h
  · simp at h
  · rw [List.mem_map] at h
    obtain ⟨e, he, rfl⟩ := h
    have hfit := scanAux_mem_fits pit _ _ e he
    have h1 : (leftmost pit q.center).cells = q.cells := by
      unfold leftmost
      by_cases h : (q.center).fits pit
      · rw [if_pos h]; exact (slideLeftAux_cells_y pit _ _).1
      · rw [if_neg h]; rfl
    have h2 : (leftmost pit q.center).xy.2 = (DEPTH : ℤ) - 1 := by
      unfold leftmost
      by_cases h : (q.center).fits pit
      · rw [if_pos h]; exact (slideLeftAux_cells_y pit _ _).2
      · rw [if_neg h]; rfl
    rw [h1, h2] at hfit
    exact hfit

/-- `foldr min` really is a lower bound. -/
theorem minOffX_le (p : Piece) : ∀ c ∈ p.cells, p.minOffX ≤ c.1 := by
  unfold Piece.minOffX
  induction p.cells with
  | nil => intro c hc; simp at hc
  | cons a t ih =>
    intro c hc
    rcases List.mem_cons.mp hc with rfl | hmem
    · simp only [List.foldr_cons]
      exact min_le_left _ _
    · simp only [List.foldr_cons]
      exact le_trans (min_le_right _ _) (ih c hmem)

/-- Helper for C7: if the centered piece fits, the tie list is
non-empty. -/
theorem findBestPosition_ne_nil (pit : Pit) (q : Piece)
    (hne : q.cells ≠ []) (hc : (q.center).fits pit) :
    (AI.findBestPosition pit q).2 ≠ [] := by
  unfold AI.findBestPosition
  show (collectBest (scanAux pit (leftmost pit q.center).fuelR (leftmost pit q.center))).2 ≠ []
  have hsf : (leftmost pit q.center).fits pit := by
    unfold leftmost
    rw [if_pos hc]
    exact slideLeftAux_fits pit _ _ hc
  obtain ⟨c0, hc0⟩ := List.exists_mem_of_ne_nil _ hne
  have hcells : (leftmost pit q.center).cells = q.cells := by
    unfold leftmost
    rw [if_pos hc]
    exact (slideLeftAux_cells_y pit _ _).1
  have hfuel : ∃ n, (leftmost pit q.center).fuelR = n + 1 := by
    obtain ⟨hb1, hb2, -, -⟩ := hsf c0 (by rw [hcells]; exact hc0)
    have hmin : (leftmost pit q.center).minOffX ≤ c0.1 :=
      minOffX_le (leftmost pit q.center) c0 (by rw [hcells]; exact hc0)
    unfold Piece.fuelR
    have hpos : 0 < ((WIDTH : ℤ) - (leftmost pit q.center).xy.1 -
        (leftmost pit q.center).minOffX + 2) := by
      have hW : ((WIDTH : ℤ)) = 10 := rfl
      omega
    have hcast : (((((WIDTH : ℤ)) - (leftmost pit q.center).xy.1 -
        (leftmost pit q.center).minOffX + 2).toNat : ℤ)) =
        ((WIDTH : ℤ)) - (leftmost pit q.center).xy.1 -
          (leftmost pit q.center).minOffX + 2 :=
      Int.toNat_of_nonneg (le_of_lt hpos)
    refine ⟨((WIDTH : ℤ) - (leftmost pit q.center).xy.1 -
        (leftmost pit q.center).minOffX + 2).toNat - 1, ?_⟩
    omega
  obtain ⟨n, hn⟩ := hfuel
  rw [hn]
  rw [show scanAux pit (n + 1) (leftmost pit q.center) =
    (if (leftmost pit q.center).fits pit then
      ((leftmost pit q.center).xy.1,
        ((pit.drop (leftmost pit q.center)).2.getScore)) ::
        scanAux pit n (leftmost pit q.center).rightS
     else []) from rfl]
  rw [if_pos hsf]
  unfold collectBest
  rw [List.foldl_cons]
  apply collectStep_ne_nil
  · exact ⟨_, rfl⟩
  · simp [collectStep]


/-- Entries accumulated by `findBestPositionRotation` all come from the
evaluated rotation list. -/
theorem rotStep_subset (l : List (ℕ × Option ℤ × List ℤ)) :
    ∀ (acc : Option ℤ × List (ℕ × List ℤ)), ∀ e ∈ (l.foldl AI.rotStep acc).2,
      e ∈ acc.2 ∨ ∃ a ∈ l, e = (a.1, a.2.2) := by
  induction l with
  | nil => intro acc e he; exact Or.inl he
  | cons a t ih =>
    intro acc e he
    rcases ih (AI.rotStep acc a) e he with h | h
    · unfold AI.rotStep at h
      by_cases h1 : AI.optLT a.2.1 acc.1
      · rw [if_pos h1] at h
        dsimp only at h
        by_cases h2 : a.2.1 = (a.2.1, ([] : List (ℕ × List ℤ))).1
        · rw [if_pos h2] at h
          simp only [List.nil_append] at h
          rcases List.mem_singleton.mp h with rfl
          exact Or.inr ⟨a, List.mem_cons_self a t, rfl⟩
        · rw [if_neg h2] at h
          simp at h
      · rw [if_neg h1] at h
        dsimp only at h
        by_cases h2 : a.2.1 = acc.1
        · rw [if_pos h2] at h
          rcases List.mem_append.mp h with h3 | h3
          · exact Or.inl h3
          · rcases List.mem_singleton.mp h3 with rfl
            exact Or.inr ⟨a, List.mem_cons_self a t, rfl⟩
        · rw [if_neg h2] at h
          exact Or.inl h
    · obtain ⟨b, hb, hba⟩ := h
      exact Or.inr ⟨b, List.mem_cons_of_mem _ hb, hba⟩

/-- C7, amended.  Every column in the tie list of `findBestPosition` is a
position where the piece fits at the spawn height before the simulated
lock, and likewise for every `(rotation, x)` pair that
`findBestPositionRotation` can return; moreover, whenever the centered
piece fits (the grid is not blocked at the spawn position), the tie list
is non-empty, so the search really does return a fitting column.  (When
nothing fits, the JS functions return `x = undefined` — the original
claim fails there; see the counterexample.) -/
theorem c7_amended (pit : Pit) (p : Piece) :
    (∀ x ∈ (AI.findBestPosition pit p).2,
      Piece.fits { cells := p.cells, xy := (x, (DEPTH : ℤ) - 1) } pit) ∧
    (p.cells ≠ [] → (p.center).fits pit → (AI.findBestPosition pit p).2 ≠ []) ∧
    (∀ e ∈ (AI.findBestPositionRotation pit p).2, ∀ x ∈ e.2,
      Piece.fits { cells := (p.rotateN e.1).cells, xy := (x, (DEPTH : ℤ) - 1) } pit) := by
  refine ⟨findBestPosition_mem_fits pit p, findBestPosition_ne_nil pit p, ?_⟩
  intro e he x hx
  unfold AI.findBestPositionRotation at he
  rcases rotStep_subset _ _ e he with h | h
  · simp at h
  · obtain ⟨a, ha, rfl⟩ := h
    rw [List.mem_map] at ha
    obtain ⟨i, -, rfl⟩ := ha
    exact findBestPosition_mem_fits pit (p.rotateN i) x hx

/-- C7, counterexample.  On a grid whose top row is fully occupied the
centered piece fits in no rotation: `findBestPosition` ends with
`bestScore = Infinity` and an empty tie list, and every entry collected
by `findBestPositionRotation` carries an empty tie list — the JS then
returns `x = undefined` (`bestPositions.random()` on `[]`), which
satisfies `fits` at no position, contradicting the claim for nearly-full
grids. -/
theorem c7_counterexample :
    (AI.findBestPosition pitTopFull dashPiece).1 = none ∧
    (AI.findBestPosition pitTopFull dashPiece).2 = [] ∧
    (AI.findBestPositionRotation pitTopFull dashPiece).2 =
      [(0, []), (1, []), (2, []), (3, [])] ∧
    ∀ e ∈ (AI.findBestPositionRotation pitTopFull dashPiece).2, e.2 = [] := by
  refine ⟨by decide, by decide, by decide, by decide⟩

/-- C7, witness for the amended theorem: on the empty pit the `-` piece's
tie list contains column 1, and the piece indeed fits there. -/
theorem c7_witness :
    (1 : ℤ) ∈ (AI.findBestPosition emptyPit dashPiece).2 ∧
    Piece.fits { cells := dashPiece.cells, xy := ((1 : ℤ), (DEPTH : ℤ) - 1) } emptyPit :=
  ⟨by decide, (c7_amended emptyPit dashPiece).1 1 (by decide)⟩

/-! ### Machinery for C2 and C3: well-formedness preservation -/

/-! ### List indexing helpers -/

theorem getD_set_self {α : Type} (v d : α) :
    ∀ (l : List α) (i : ℕ), i < l.length → (l.set i v).getD i d = v := by
  intro l
  induction l with
  | nil => intro i h; simp at h
  | cons a t ih =>
    intro i h
    cases i with
    | zero => rfl
    | succ n =>
      have : n < t.length := by simpa using h
      simpa using ih n this

theorem getD_set_ne {α : Type} (v d : α) :
    ∀ (l : List α) (i j : ℕ), i ≠ j → (l.set i v).getD j d = l.getD j d := by
  intro l
  induction l with
  | nil => intro i j _; simp
  | cons a t ih =>
    intro i j hne
    cases i with
    | zero =>
      cases j with
      | zero => exact absurd rfl hne
      | succ m => simp
    | succ n =>
      cases j with
      | zero => rfl
      | succ m =>
        have : n ≠ m := fun h => hne (by rw [h])
        simpa using ih n m this

/-! ### Properties of the gravity loop -/

theorem fallAux_fits (pit : Pit) :
    ∀ (n : ℕ) (q : Piece), q.fits pit → (fallAux pit n q).fits pit := by
  intro n
  induction n with
  | zero => intro q h; exact h
  | succ n ih =>
    intro q h
    rw [show fallAux pit (n + 1) q =
      (if (q.down).fits pit then fallAux pit n q.down else q) from rfl]
    by_cases hd : (q.down).fits pit
    · rw [if_pos hd]; exact ih _ hd
    · rw [if_neg hd]; exact h

theorem fallAux_cells (pit : Pit) :
    ∀ (n : ℕ) (q : Piece), (fallAux pit n q).cells = q.cells := by
  intro n
  induction n with
  | zero => intro q; rfl
  | succ n ih =>
    intro q
    rw [show fallAux pit (n + 1) q =
      (if (q.down).fits pit then fallAux pit n q.down else q) from rfl]
    by_cases hd : (q.down).fits pit
    · rw [if_pos hd]; exact ih _
    · rw [if_neg hd]

/-- The resting piece of a fitting start still fits (the loop only ever
moves to fitting positions). -/
theorem gravityRest_fits (pit : Pit) (p : Piece) (h : p.fits pit) :
    (gravityRest pit p).fits pit := by
  unfold gravityRest
  rw [if_pos h]
  exact fallAux_fits pit _ _ h

/-- Gravity never changes the cell offsets. -/
theorem gravityRest_cells (pit : Pit) (p : Piece) :
    (gravityRest pit p).cells = p.cells := by
  unfold gravityRest
  by_cases h : p.fits pit
  · rw [if_pos h]; exact fallAux_cells pit _ _
  · rw [if_neg h]; rfl

/-! ### Well-formedness through the insertion loop -/

theorem insertCell_WF (pit : Pit) (c : XY) (hwf : WF pit) (hmem : c ∉ pit.cells)
    (hb : 0 ≤ c.1 ∧ c.1 < (WIDTH : ℤ) ∧ 0 ≤ c.2 ∧ c.2 < (DEPTH : ℤ)) :
    WF (insertCell pit c) := by
  obtain ⟨hrl, hcl, hbnd, hrows, hcols⟩ := hwf
  obtain ⟨hb1, hb2, hb3, hb4⟩ := hb
  have hrcond : (0 ≤ c.2 ∧ c.2 < (DEPTH : ℤ)) := ⟨hb3, hb4⟩
  have hccond : (0 ≤ c.1 ∧ c.1 < (WIDTH : ℤ) ∧ c.2 < (DEPTH : ℤ) ∧ 0 ≤ c.2) :=
    ⟨hb1, hb2, hb4, hb3⟩
  have hrows1 : (insertCell pit c).rows =
      pit.rows.set c.2.toNat (pit.rows.getD c.2.toNat 0 + 1) := by
    unfold insertCell
    rw [if_pos hrcond]
  have hcols1 : (insertCell pit c).cols =
      pit.cols.set c.1.toNat (max (pit.cols.getD c.1.toNat 0) (c.2 + 1)) := by
    unfold insertCell
    rw [if_pos hccond]
  have hcells1 : (insertCell pit c).cells = insert c pit.cells := rfl
  have hyNat : c.2.toNat < DEPTH := by omega
  have hxNat : c.1.toNat < WIDTH := by omega
  refine ⟨?_, ?_, ?_, ?_, ?_⟩
  · rw [hrows1, List.length_set]; exact hrl
  · rw [hcols1, List.length_set]; exact hcl
  · intro w hw
    rw [hcells1, Finset.mem_insert] at hw
    rcases hw with rfl | hw
    · exact ⟨hb1, hb2, hb3, hb4⟩
    · exact hbnd w hw
  · intro j hj
    rw [hrows1, hcells1]
    by_cases hcase : j = c.2.toNat
    · rw [hcase]
      rw [getD_set_self _ _ _ _ (by rw [hrl]; exact hyNat)]
      have hcy : c.2 = ((c.2.toNat : ℕ) : ℤ) := by omega
      rw [Finset.filter_insert, if_pos hcy,
        Finset.card_insert_of_not_mem (fun hcf => hmem (Finset.mem_filter.mp hcf).1)]
      rw [hrows _ hyNat]
    · rw [getD_set_ne _ _ _ _ _ (fun h => hcase h.symm)]
      have hcy : ¬ (c.2 = (j : ℤ)) := by omega
      rw [Finset.filter_insert, if_neg hcy]
      exact hrows j hj
  · intro x hx
    rw [hcols1, hcells1]
    by_cases hcase : x = c.1.toNat
    · rw [hcase]
      rw [getD_set_self _ _ _ _ (by rw [hcl]; exact hxNat)]
      have hcx : c.1 = ((c.1.toNat : ℕ) : ℤ) := by omega
      rw [Finset.filter_insert, if_pos hcx, Finset.sup_insert]
      rw [hcols _ hxNat]
      push_cast
      rw [Int.toNat_of_nonneg (by omega : (0 : ℤ) ≤ c.2 + 1)]
      omega
    · rw [getD_set_ne _ _ _ _ _ (fun h => hcase h.symm)]
      have hcx : ¬ (c.1 = (x : ℤ)) := by omega
      rw [Finset.filter_insert, if_neg hcx]
      exact hcols x hx

theorem insertCells_WF (cs : List XY) :
    ∀ pit : Pit, WF pit → cs.Nodup → (∀ c ∈ cs, c ∉ pit.cells) →
      (∀ c ∈ cs, 0 ≤ c.1 ∧ c.1 < (WIDTH : ℤ) ∧ 0 ≤ c.2 ∧ c.2 < (DEPTH : ℤ)) →
      WF (insertCells pit cs) := by
  induction cs with
  | nil => intro pit hwf _ _ _; exact hwf
  | cons c t ih =>
    intro pit hwf hnd hnm hb
    show WF (insertCells (insertCell pit c) t)
    refine ih (insertCell pit c) ?_ (List.Nodup.of_cons hnd) ?_ ?_
    · exact insertCell_WF pit c hwf (hnm c (List.mem_cons_self c t))
        (hb c (List.mem_cons_self c t))
    · intro w hw hmem
      rw [show (insertCell pit c).cells = insert c pit.cells from rfl,
        Finset.mem_insert] at hmem
      rcases hmem with rfl | hmem
      · exact (List.nodup_cons.mp hnd).1 hw
      · exact hnm w (List.mem_cons_of_mem _ hw) hmem
    · intro w hw
      exact hb w (List.mem_cons_of_mem _ hw)

/-- The lock (gravity + insertion) preserves well-formedness when the
piece fits, has distinct cells and comes to rest below the top. -/
theorem insertPiece_WF (pit : Pit) (p : Piece) (hwf : WF pit) (hfit : p.fits pit)
    (hnd : p.cells.Nodup)
    (hbelow : ∀ c ∈ (gravityRest pit p).absCells, c.2 < (DEPTH : ℤ)) :
    WF (pit.insertPiece p) := by
  have hqf : (gravityRest pit p).fits pit := gravityRest_fits pit p hfit
  apply insertCells_WF _ pit hwf
  · unfold Piece.absCells
    refine List.Nodup.map ?_ ?_
    · intro a b hab
      have h1 := congrArg Prod.fst hab
      have h2 := congrArg Prod.snd hab
      simp only at h1 h2
      exact Prod.ext_iff.mpr ⟨by omega, by omega⟩
    · rw [gravityRest_cells]; exact hnd
  · intro c hc
    unfold Piece.absCells at hc
    rw [List.mem_map] at hc
    obtain ⟨c0, hc0, rfl⟩ := hc
    exact (hqf c0 hc0).2.2.2
  · intro c hc
    have hy := hbelow c hc
    unfold Piece.absCells at hc
    rw [List.mem_map] at hc
    obtain ⟨c0, hc0, rfl⟩ := hc
    obtain ⟨h1, h2, h3, -⟩ := hqf c0 hc0
    exact ⟨h1, h2, h3, hy⟩

/-! ### The descending sort on a contiguous block -/

theorem insertDesc_append_of_lt (a : ℕ) :
    ∀ l : List ℕ, (∀ b ∈ l, ¬ b ≤ a) → insertDesc a l = l ++ [a] := by
  intro l
  induction l with
  | nil => intro _; rfl
  | cons b t ih =>
    intro h
    rw [show insertDesc a (b :: t) = (if b ≤ a then a :: b :: t else b :: insertDesc a t)
      from rfl]
    rw [if_neg (h b (List.mem_cons_self b t)), ih (fun w hw => h w (List.mem_cons_of_mem _ hw))]
    rfl

theorem sortDesc_range' : ∀ (k m : ℕ), sortDesc (List.range' m k) = (List.range' m k).reverse := by
  intro k
  induction k with
  | zero => intro m; rfl
  | succ k ih =>
    intro m
    rw [List.range'_succ]
    show insertDesc m (sortDesc (List.range' (m + 1) k)) = (m :: List.range' (m + 1) k).reverse
    rw [ih (m + 1), insertDesc_append_of_lt]
    · rw [List.reverse_cons]
    · intro b hb
      rw [List.mem_reverse, List.mem_range'] at hb
      obtain ⟨i, -, rfl⟩ := hb
      omega

/-! ### The forEach loop of `_removeCompletedRows` -/

theorem loop_cells (L : List ℕ) :
    ∀ pit : Pit, (L.foldl clearRowStep pit).cells =
      pit.cells.filter (fun c => ∀ j ∈ L, c.2 ≠ (j : ℤ)) := by
  induction L with
  | nil => intro pit; simp
  | cons a t ih =>
    intro pit
    rw [List.foldl_cons, ih]
    rw [show (clearRowStep pit a).cells = pit.cells.filter (fun c => c.2 ≠ (a : ℤ)) from rfl]
    rw [Finset.filter_filter]
    apply Finset.filter_congr
    intro c _
    constructor
    · rintro ⟨h1, h2⟩ j hj
      rcases List.mem_cons.mp hj with rfl | hj
      · exact h1
      · exact h2 j hj
    · intro h
      exact ⟨h a (List.mem_cons_self a t), fun j hj => h j (List.mem_cons_of_mem _ hj)⟩

theorem loop_cols_length (L : List ℕ) :
    ∀ pit : Pit, (L.foldl clearRowStep pit).cols.length = pit.cols.length := by
  induction L with
  | nil => intro pit; rfl
  | cons a t ih =>
    intro pit
    rw [List.foldl_cons, ih]
    show (List.replicate pit.cols.length (0 : ℤ)).length = _
    rw [List.length_replicate]

theorem loop_cols (L : List ℕ) (hL : L ≠ []) :
    ∀ pit : Pit, (L.foldl clearRowStep pit).cols = List.replicate pit.cols.length 0 := by
  induction L with
  | nil => exact absurd rfl hL
  | cons a t ih =>
    intro pit
    rw [List.foldl_cons]
    rcases ht : t with _ | ⟨b, t2⟩
    · show (clearRowStep pit a).cols = _
      rfl
    · rw [← ht, ih (by rw [ht]; exact List.cons_ne_nil b t2) (clearRowStep pit a)]
      show List.replicate (List.replicate pit.cols.length (0 : ℤ)).length 0 = _
      rw [List.length_replicate]

/-- The rows bookkeeping of the loop over a descending contiguous block:
remove the counters of rows `m .. m+k-1` and append `k` fresh zeros. -/
theorem loop_rows (k : ℕ) :
    ∀ (m : ℕ) (pit : Pit), pit.rows.length = DEPTH → m + k ≤ DEPTH →
      (((List.range' m k).reverse).foldl clearRowStep pit).rows =
        pit.rows.take m ++ pit.rows.drop (m + k) ++ List.replicate k 0 := by
  induction k with
  | zero =>
    intro m pit hlen _
    simp [List.take_append_drop]
  | succ k ih =>
    intro m pit hlen hmk
    have hcons : (List.range' m (k + 1)).reverse = (m + k) :: (List.range' m k).reverse := by
      rw [show (List.range' m (k + 1)) = List.range' m k ++ [m + k] by
        rw [List.range'_1_concat ..]]
      rw [List.reverse_append]
      rfl
    rw [hcons, List.foldl_cons]
    have hlen1 : (clearRowStep pit (m + k)).rows.length = DEPTH := by
      show (pit.rows.eraseIdx (m + k) ++ [0]).length = DEPTH
      rw [List.length_append, List.length_eraseIdx_of_lt (by omega)]
      simp
      omega
    rw [ih m (clearRowStep pit (m + k)) hlen1 (by omega)]
    show (pit.rows.eraseIdx (m + k) ++ [0]).take m ++
        (pit.rows.eraseIdx (m + k) ++ [0]).drop (m + k) ++ List.replicate k 0 = _
    rw [List.eraseIdx_eq_take_drop_succ]
    have hlt : (pit.rows.take (m + k)).length = m + k := by
      rw [List.length_take]
      omega
    have htake : ((pit.rows.take (m + k) ++ pit.rows.drop (m + k + 1)) ++ [0]).take m =
        pit.rows.take m := by
      rw [List.append_assoc, List.take_append_of_le_length (by omega), List.take_take]
      congr 1
      omega
    have hdrop : ((pit.rows.take (m + k) ++ pit.rows.drop (m + k + 1)) ++ [0]).drop (m + k) =
        pit.rows.drop (m + k + 1) ++ [0] := by
      rw [List.append_assoc, List.drop_append_of_le_length (by omega),
        List.drop_eq_nil_of_le (by omega), List.nil_append]
    rw [htake, hdrop]
    simp [List.append_assoc, List.replicate_succ]
    congr 1

/-! ### The clearing step on a contiguous completed block -/

/-- Unfolding `removeCompletedRows` when the completed rows are the
contiguous block `[m, m+k)` with `k ≥ 1`. -/
theorem removeCompleted_unfold (Q : Pit) (m k : ℕ) (hk : 0 < k)
    (hC : completedRowsList Q = List.range' m k) :
    Q.removeCompletedRows (completedRowsList Q) =
      { cells := (((List.range' m k).reverse).foldl clearRowStep Q).cells.image
          (fun c => if c.2 > (m : ℤ) then (c.1, c.2 - (k : ℤ)) else c),
        rows := (((List.range' m k).reverse).foldl clearRowStep Q).rows,
        cols := recomputeCols
          ((((List.range' m k).reverse).foldl clearRowStep Q).cols.length)
          ((((List.range' m k).reverse).foldl clearRowStep Q).cells.image
            (fun c => if c.2 > (m : ℤ) then (c.1, c.2 - (k : ℤ)) else c)) } := by
  have hsorted : sortDesc (completedRowsList Q) = (List.range' m k).reverse := by
    rw [hC, sortDesc_range']
  have hlast : ((List.range' m k).reverse).getLast? = some m := by
    rw [List.getLast?_reverse]
    cases k with
    | zero => omega
    | succ k => rw [List.range'_succ]; rfl
  have hklen : ((List.range' m k).reverse).length = k := by simp
  unfold Pit.removeCompletedRows
  simp only [hsorted, hlast, hklen]

/-- The loop leaves exactly the cells outside the cleared band, assuming
cells sit at non-negative heights. -/
theorem loop_cells_band (Q : Pit) (m k : ℕ)
    (hbnd : ∀ c ∈ Q.cells, 0 ≤ c.2) :
    (((List.range' m k).reverse).foldl clearRowStep Q).cells =
      Q.cells.filter (fun c => c.2 < (m : ℤ)) ∪
      Q.cells.filter (fun c => (m : ℤ) + k ≤ c.2) := by
  rw [loop_cells]
  ext c
  simp only [Finset.mem_filter, Finset.mem_union]
  constructor
  · rintro ⟨hcQ, hpred⟩
    have hge := hbnd c hcQ
    by_cases hlt : c.2 < (m : ℤ)
    · exact Or.inl ⟨hcQ, hlt⟩
    · refine Or.inr ⟨hcQ, ?_⟩
      by_contra hcon
      push_neg at hcon
      have hj : c.2.toNat ∈ List.range' m k := by
        rw [List.mem_range']
        exact ⟨c.2.toNat - m, by omega, by omega⟩
      exact hpred c.2.toNat (List.mem_reverse.mpr hj) (by omega)
  · rintro (⟨hcQ, hlt⟩ | ⟨hcQ, hge⟩) <;>
      refine ⟨by assumption, fun j hj => ?_⟩ <;>
      · rw [List.mem_reverse, List.mem_range'] at hj
        obtain ⟨i, hi, rfl⟩ := hj
        omega

/-- The shift-and-rebuild keeps cells below the band unchanged and moves
cells above the band down by `k` (for occupancies inside the band the
loop has already removed everything). -/
theorem shifted_cells_split (Q : Pit) (m k : ℕ) (hk : 0 < k)
    (hbnd : ∀ c ∈ Q.cells, 0 ≤ c.2) :
    ((((List.range' m k).reverse).foldl clearRowStep Q).cells.image
        (fun c => if c.2 > (m : ℤ) then (c.1, c.2 - (k : ℤ)) else c)) =
      Q.cells.filter (fun c => c.2 < (m : ℤ)) ∪
      (Q.cells.filter (fun c => (m : ℤ) + k ≤ c.2)).image
        (fun c => (c.1, c.2 - (k : ℤ))) := by
  rw [loop_cells_band Q m k hbnd, Finset.image_union]
  congr 1
  · have h1 : ∀ c ∈ Q.cells.filter (fun c => c.2 < (m : ℤ)),
        (if c.2 > (m : ℤ) then (c.1, c.2 - (k : ℤ)) else c) = id c := by
      intro c hc
      rw [Finset.mem_filter] at hc
      rw [if_neg (by omega)]
      rfl
    rw [Finset.image_congr h1, Finset.image_id]
  · have h1 : ∀ c ∈ Q.cells.filter (fun c => (m : ℤ) + k ≤ c.2),
        (if c.2 > (m : ℤ) then (c.1, c.2 - (k : ℤ)) else c) = (c.1, c.2 - (k : ℤ)) := by
      intro c hc
      rw [Finset.mem_filter] at hc
      rw [if_pos (by omega)]
    exact Finset.image_congr h1

/-- A full band of `k` rows holds exactly `k × WIDTH` cells. -/
theorem band_card (Q : Pit) :
    ∀ (k m : ℕ),
      (∀ j, m ≤ j → j < m + k → (Q.cells.filter (fun c => c.2 = ((j : ℕ) : ℤ))).card = WIDTH) →
      (Q.cells.filter (fun c => (m : ℤ) ≤ c.2 ∧ c.2 < (m : ℤ) + k)).card = k * WIDTH := by
  intro k
  induction k with
  | zero =>
    intro m _
    rw [show (Q.cells.filter (fun c => (m : ℤ) ≤ c.2 ∧ c.2 < (m : ℤ) + (0 : ℕ))) = ∅ by
      apply Finset.filter_false_of_mem
      intro c _
      push_cast
      omega]
    simp
  | succ k ih =>
    intro m hfull
    have hcup : Q.cells.filter (fun c => (m : ℤ) ≤ c.2 ∧ c.2 < (m : ℤ) + (k + 1 : ℕ)) =
        Q.cells.filter (fun c => (m : ℤ) ≤ c.2 ∧ c.2 < (m : ℤ) + k) ∪
        Q.cells.filter (fun c => c.2 = ((m + k : ℕ) : ℤ)) := by
      rw [← Finset.filter_or]
      apply Finset.filter_congr
      intro c _
      push_cast
      constructor
      · rintro ⟨h1, h2⟩
        by_cases h : c.2 < (m : ℤ) + k
        · exact Or.inl ⟨h1, h⟩
        · exact Or.inr (by omega)
      · rintro (⟨h1, h2⟩ | h1) <;> constructor <;> omega
    have hdisj : Disjoint (Q.cells.filter (fun c => (m : ℤ) ≤ c.2 ∧ c.2 < (m : ℤ) + k))
        (Q.cells.filter (fun c => c.2 = ((m + k : ℕ) : ℤ))) := by
      rw [Finset.disjoint_left]
      intro c hc1 hc2
      rw [Finset.mem_filter] at hc1 hc2
      have h2 := hc2.2
      push_cast at h2
      omega
    rw [hcup, Finset.card_union_of_disjoint hdisj,
      ih m (fun j hj1 hj2 => hfull j hj1 (by omega)),
      hfull (m + k) (by omega) (by omega)]
    ring

set_option maxHeartbeats 1000000 in
/-- Partitioning the occupancy of a pit around the cleared band
`[m, m+k)`. -/
theorem cells_partition (Q : Pit) (m k : ℕ)
    (hband : (Q.cells.filter (fun c => (m : ℤ) ≤ c.2 ∧ c.2 < (m : ℤ) + k)).card = k * WIDTH) :
    Q.cells.card =
      (Q.cells.filter (fun c => c.2 < (m : ℤ))).card + k * WIDTH +
      (Q.cells.filter (fun c => (m : ℤ) + k ≤ c.2)).card := by
  have hsplit : ((Q.cells.filter (fun c => c.2 < (m : ℤ)))).card +
      ((Q.cells.filter (fun c => ¬ c.2 < (m : ℤ)))).card = Q.cells.card :=
    Finset.filter_card_add_filter_neg_card_eq_card (fun c : XY => c.2 < (m : ℤ))
  have hcup : Q.cells.filter (fun c => ¬ c.2 < (m : ℤ)) =
      Q.cells.filter (fun c => (m : ℤ) ≤ c.2 ∧ c.2 < (m : ℤ) + k) ∪
      Q.cells.filter (fun c => (m : ℤ) + k ≤ c.2) := by
    rw [← Finset.filter_or]
    apply Finset.filter_congr
    intro c _
    constructor
    · intro h
      by_cases hk : c.2 < (m : ℤ) + k
      · exact Or.inl ⟨by omega, hk⟩
      · exact Or.inr (by omega)
    · rintro (⟨h1, -⟩ | h1) <;> omega
  have hdisj : Disjoint (Q.cells.filter (fun c => (m : ℤ) ≤ c.2 ∧ c.2 < (m : ℤ) + k))
      (Q.cells.filter (fun c => (m : ℤ) + k ≤ c.2)) := by
    rw [Finset.disjoint_left]
    intro c hc1 hc2
    rw [Finset.mem_filter] at hc1 hc2
    obtain ⟨-, -, h1⟩ := hc1
    obtain ⟨-, h2⟩ := hc2
    omega
  rw [hcup, Finset.card_union_of_disjoint hdisj, hband] at hsplit
  omega

/-- The card equation of the clearing step. -/
theorem removeCompleted_card (Q : Pit) (m k : ℕ)
    (hband : (Q.cells.filter (fun c => (m : ℤ) ≤ c.2 ∧ c.2 < (m : ℤ) + k)).card = k * WIDTH) :
    (Q.cells.filter (fun c => c.2 < (m : ℤ)) ∪
      (Q.cells.filter (fun c => (m : ℤ) + k ≤ c.2)).image
        (fun c => (c.1, c.2 - (k : ℤ)))).card + k * WIDTH = Q.cells.card := by
  have hdisj : Disjoint (Q.cells.filter (fun c => c.2 < (m : ℤ)))
      ((Q.cells.filter (fun c => (m : ℤ) + k ≤ c.2)).image
        (fun c => (c.1, c.2 - (k : ℤ)))) := by
    rw [Finset.disjoint_left]
    intro c hc hcim
    rw [Finset.mem_filter] at hc
    rw [Finset.mem_image] at hcim
    obtain ⟨a, ha, heq⟩ := hcim
    rw [Finset.mem_filter] at ha
    have heq1 : ((a.1, a.2 - (k : ℤ)) : XY) = c := heq
    have h2 : a.2 - (k : ℤ) = c.2 := by rw [← heq1]
    omega
  have hinj : Set.InjOn (fun c : XY => (c.1, c.2 - (k : ℤ)))
      ↑(Q.cells.filter (fun c => (m : ℤ) + k ≤ c.2)) := by
    intro a _ b _ hab
    have hab1 : ((a.1, a.2 - (k : ℤ)) : XY) = (b.1, b.2 - (k : ℤ)) := hab
    rw [Prod.mk.injEq] at hab1
    obtain ⟨h1, h2⟩ := hab1
    exact Prod.ext_iff.mpr ⟨h1, by omega⟩
  rw [Finset.card_union_of_disjoint hdisj, Finset.card_image_of_injOn hinj]
  rw [cells_partition Q m k hband]
  ring

/-! ### Indexing helpers for the shifted rows array -/

theorem getD_append_left {α : Type} (l1 l2 : List α) (j : ℕ) (d : α) (h : j < l1.length) :
    (l1 ++ l2).getD j d = l1.getD j d := by
  rw [List.getD_eq_getElem?_getD, List.getElem?_append_left h, ← List.getD_eq_getElem?_getD]

theorem getD_append_right {α : Type} (l1 l2 : List α) (j : ℕ) (d : α) (h : l1.length ≤ j) :
    (l1 ++ l2).getD j d = l2.getD (j - l1.length) d := by
  rw [List.getD_eq_getElem?_getD, List.getElem?_append_right h, ← List.getD_eq_getElem?_getD]

theorem getD_drop {α : Type} (l : List α) (n i : ℕ) (d : α) :
    (l.drop n).getD i d = l.getD (n + i) d := by
  rw [List.getD_eq_getElem?_getD, List.getElem?_drop, ← List.getD_eq_getElem?_getD]

theorem getD_take {α : Type} (l : List α) (n i : ℕ) (d : α) (h : i < n) :
    (l.take n).getD i d = l.getD i d := by
  rw [List.getD_eq_getElem?_getD, List.getElem?_take_of_lt h, ← List.getD_eq_getElem?_getD]

theorem getD_replicate {α : Type} (n i : ℕ) (v d : α) (h : i < n) :
    (List.replicate n v).getD i d = v := by
  rw [List.getD_eq_getElem?_getD, List.getElem?_replicate_of_lt h]
  rfl

theorem getD_map_range {α : Type} (f : ℕ → α) (n x : ℕ) (d : α) (h : x < n) :
    ((List.range n).map f).getD x d = f x := by
  rw [List.getD_eq_getElem?_getD, List.getElem?_map, List.getElem?_range h]
  rfl

/-- Reading the recomputed column heights. -/
theorem recomputeCols_getD (len : ℕ) (s : Finset XY) (x : ℕ) (h : x < len) :
    (recomputeCols len s).getD x 0 =
      (((s.filter (fun c => c.1 = (x : ℤ))).sup (fun c => (c.2 + 1).toNat) : ℕ) : ℤ) := by
  unfold recomputeCols
  rw [getD_map_range _ _ _ _ h]

/-! ### Row counts of the shifted occupancy -/

/-- Counting cells at height `j` in the cleared-and-shifted occupancy. -/
theorem shifted_count (Q : Pit) (m k : ℕ) (j : ℕ)
    (hbnd : CellsInBounds Q) :
    ((Q.cells.filter (fun c => c.2 < (m : ℤ)) ∪
      (Q.cells.filter (fun c => (m : ℤ) + k ≤ c.2)).image
        (fun c => (c.1, c.2 - (k : ℤ)))).filter (fun c => c.2 = (j : ℤ))).card =
    (if j < m then (Q.cells.filter (fun c => c.2 = (j : ℤ))).card
     else if j + k < DEPTH then (Q.cells.filter (fun c => c.2 = ((j + k : ℕ) : ℤ))).card
     else 0) := by
  rw [Finset.filter_union]
  have himg : ((Q.cells.filter (fun c => (m : ℤ) + k ≤ c.2)).image
        (fun c => (c.1, c.2 - (k : ℤ)))).filter (fun c => c.2 = (j : ℤ)) =
      ((Q.cells.filter (fun c => (m : ℤ) + k ≤ c.2)).filter
        (fun c => c.2 = ((j + k : ℕ) : ℤ))).image (fun c => (c.1, c.2 - (k : ℤ))) := by
    rw [Finset.filter_image]
    congr 1
    apply Finset.filter_congr
    intro c _
    show c.2 - (k : ℤ) = (j : ℤ) ↔ c.2 = ((j + k : ℕ) : ℤ)
    push_cast
    omega
  rw [himg]
  have hinj : Set.InjOn (fun c : XY => (c.1, c.2 - (k : ℤ)))
      ↑((Q.cells.filter (fun c => (m : ℤ) + k ≤ c.2)).filter
        (fun c => c.2 = ((j + k : ℕ) : ℤ))) := by
    intro a _ b _ hab
    have hab1 : ((a.1, a.2 - (k : ℤ)) : XY) = (b.1, b.2 - (k : ℤ)) := hab
    rw [Prod.mk.injEq] at hab1
    obtain ⟨h1, h2⟩ := hab1
    exact Prod.ext_iff.mpr ⟨h1, by omega⟩
  have hdisj : Disjoint ((Q.cells.filter (fun c => c.2 < (m : ℤ))).filter
        (fun c => c.2 = (j : ℤ)))
      (((Q.cells.filter (fun c => (m : ℤ) + k ≤ c.2)).filter
        (fun c => c.2 = ((j + k : ℕ) : ℤ))).image (fun c => (c.1, c.2 - (k : ℤ)))) := by
    rw [Finset.disjoint_left]
    intro c hc hcim
    rw [Finset.mem_filter, Finset.mem_filter] at hc
    rw [Finset.mem_image] at hcim
    obtain ⟨a, ha, heq⟩ := hcim
    rw [Finset.mem_filter, Finset.mem_filter] at ha
    have heq1 : ((a.1, a.2 - (k : ℤ)) : XY) = c := heq
    have h2 : a.2 - (k : ℤ) = c.2 := by rw [← heq1]
    obtain ⟨⟨-, ha2⟩, -⟩ := ha
    obtain ⟨⟨-, hc2⟩, -⟩ := hc
    omega
  rw [Finset.card_union_of_disjoint hdisj, Finset.card_image_of_injOn hinj]
  by_cases hj : j < m
  · rw [if_pos hj]
    have h1 : (Q.cells.filter (fun c => c.2 < (m : ℤ))).filter (fun c => c.2 = (j : ℤ)) =
        Q.cells.filter (fun c => c.2 = (j : ℤ)) := by
      rw [Finset.filter_filter]
      apply Finset.filter_congr
      intro c _
      constructor
      · rintro ⟨-, h⟩; exact h
      · intro h; exact ⟨by omega, h⟩
    have h2 : (Q.cells.filter (fun c => (m : ℤ) + k ≤ c.2)).filter
        (fun c => c.2 = ((j + k : ℕ) : ℤ)) = ∅ := by
      rw [Finset.filter_filter]
      apply Finset.filter_false_of_mem
      intro c _
      rintro ⟨h1, h2⟩
      push_cast at h2
      omega
    rw [h1, h2]
    simp
  · rw [if_neg hj]
    have h1 : (Q.cells.filter (fun c => c.2 < (m : ℤ))).filter (fun c => c.2 = (j : ℤ)) = ∅ := by
      rw [Finset.filter_filter]
      apply Finset.filter_false_of_mem
      intro c _
      rintro ⟨h1, h2⟩
      omega
    rw [h1, Finset.card_empty, Nat.zero_add]
    by_cases hjk : j + k < DEPTH
    · rw [if_pos hjk]
      rw [Finset.filter_filter]
      congr 1
      apply Finset.filter_congr
      intro c _
      constructor
      · rintro ⟨-, h⟩; exact h
      · intro h
        refine ⟨?_, h⟩
        push_cast at h ⊢
        omega
    · rw [if_neg hjk]
      rw [Finset.filter_filter]
      rw [Finset.card_eq_zero]
      apply Finset.filter_false_of_mem
      intro c hc
      rintro ⟨-, h2⟩
      have := (hbnd c hc).2.2.2
      push_cast at h2
      omega

/-- The clearing step on a contiguous completed block: well-formedness is
preserved, the cells are the unchanged below-band part plus the
above-band part shifted down by `k`, and exactly `k × WIDTH` cells are
removed. -/
theorem removeCompleted_WF (Q : Pit) (m k : ℕ) (hwf : WF Q) (hk : 0 < k)
    (hC : completedRowsList Q = List.range' m k) :
    (Q.removeCompletedRows (completedRowsList Q)).cells =
      Q.cells.filter (fun c => c.2 < (m : ℤ)) ∪
      (Q.cells.filter (fun c => (m : ℤ) + k ≤ c.2)).image
        (fun c => (c.1, c.2 - (k : ℤ))) ∧
    (Q.removeCompletedRows (completedRowsList Q)).cells.card + k * WIDTH = Q.cells.card ∧
    WF (Q.removeCompletedRows (completedRowsList Q)) := by
  obtain ⟨hrl, hcl, hbnd, hrows, hcols⟩ := hwf
  have hmk : m + k ≤ DEPTH := by
    have hmem : m + (k - 1) ∈ completedRowsList Q := by
      rw [hC, List.mem_range']
      exact ⟨k - 1, by omega, by omega⟩
    have := List.mem_range.mp (List.mem_of_mem_filter hmem)
    omega
  have hfull : ∀ j, m ≤ j → j < m + k →
      (Q.cells.filter (fun c => c.2 = ((j : ℕ) : ℤ))).card = WIDTH := by
    intro j h1 h2
    have hjC : j ∈ completedRowsList Q := by
      rw [hC, List.mem_range']
      exact ⟨j - m, by omega, by omega⟩
    have hp := (List.mem_filter.mp hjC).2
    have hp2 : Q.rows.getD j 0 = WIDTH := by simpa using hp
    rw [← hrows j (by omega)]
    exact hp2
  have hband := band_card Q k m hfull
  have hre := removeCompleted_unfold Q m k hk hC
  have hsplit := shifted_cells_split Q m k hk (fun c hc => (hbnd c hc).2.2.1)
  have hcellsR : (Q.removeCompletedRows (completedRowsList Q)).cells =
      Q.cells.filter (fun c => c.2 < (m : ℤ)) ∪
      (Q.cells.filter (fun c => (m : ℤ) + k ≤ c.2)).image
        (fun c => (c.1, c.2 - (k : ℤ))) := by
    rw [hre]
    exact hsplit
  have hrowsR : (Q.removeCompletedRows (completedRowsList Q)).rows =
      (Q.rows.take m ++ Q.rows.drop (m + k)) ++ List.replicate k 0 := by
    rw [hre]
    show (((List.range' m k).reverse).foldl clearRowStep Q).rows = _
    rw [loop_rows k m Q hrl hmk]
  have hcolslen : (((List.range' m k).reverse).foldl clearRowStep Q).cols.length = WIDTH := by
    rw [loop_cols_length, hcl]
  have hcolsR : (Q.removeCompletedRows (completedRowsList Q)).cols =
      recomputeCols WIDTH (Q.removeCompletedRows (completedRowsList Q)).cells := by
    rw [hre]
    show recomputeCols (((List.range' m k).reverse).foldl clearRowStep Q).cols.length _ = _
    rw [hcolslen]
  have htklen : (Q.rows.take m).length = m := by
    rw [List.length_take]
    omega
  have hdplen : (Q.rows.drop (m + k)).length = DEPTH - (m + k) := by
    rw [List.length_drop, hrl]
  refine ⟨hcellsR, ?_, ?_⟩
  · rw [hcellsR]
    exact removeCompleted_card Q m k hband
  refine ⟨?_, ?_, ?_, ?_, ?_⟩
  · rw [hrowsR, List.length_append, List.length_append, htklen, hdplen,
      List.length_replicate]
    omega
  · rw [hcolsR]
    unfold recomputeCols
    rw [List.length_map, List.length_range]
  · intro c hc
    rw [hcellsR] at hc
    rcases Finset.mem_union.mp hc with h | h
    · exact hbnd c (Finset.mem_filter.mp h).1
    · obtain ⟨a, ha, heq⟩ := Finset.mem_image.mp h
      rw [Finset.mem_filter] at ha
      obtain ⟨haQ, ha2⟩ := ha
      obtain ⟨hb1, hb2, hb3, hb4⟩ := hbnd a haQ
      have heq1 : ((a.1, a.2 - (k : ℤ)) : XY) = c := heq
      rw [← heq1]
      refine ⟨hb1, hb2, by omega, by omega⟩
  · intro j hj
    rw [hrowsR, hcellsR, shifted_count Q m k j ?hb]
    case hb => exact hbnd
    by_cases h1 : j < m
    · rw [if_pos h1]
      rw [getD_append_left _ _ _ _ (by rw [List.length_append, htklen, hdplen]; omega),
        getD_append_left _ _ _ _ (by rw [htklen]; omega),
        getD_take _ _ _ _ h1]
      exact hrows j hj
    · rw [if_neg h1]
      by_cases h2 : j + k < DEPTH
      · rw [if_pos h2]
        rw [getD_append_left _ _ _ _ (by rw [List.length_append, htklen, hdplen]; omega),
          getD_append_right _ _ _ _ (by rw [htklen]; omega),
          htklen, getD_drop]
        rw [show m + k + (j - m) = j + k by omega]
        exact hrows (j + k) h2
      · rw [if_neg h2]
        rw [getD_append_right _ _ _ _ (by rw [List.length_append, htklen, hdplen]; omega),
          getD_replicate]
        rw [List.length_append, htklen, hdplen]
        omega
  · intro x hx
    rw [hcolsR, recomputeCols_getD _ _ _ hx]

/-- A lock (gravity, insertion, cleanup) preserves well-formedness when
the piece fits, its cells are distinct, it rests below the top of the
pit, and the rows it completes are contiguous. -/
theorem drop_WF (pit : Pit) (p : Piece) (hwf : WF pit) (hfit : p.fits pit)
    (hnd : p.cells.Nodup)
    (hbelow : ∀ c ∈ (gravityRest pit p).absCells, c.2 < (DEPTH : ℤ))
    (hcont : ∃ m, completedRowsList (pit.insertPiece p) =
      List.range' m (completedRowsList (pit.insertPiece p)).length) :
    WF (pit.drop p).2 := by
  have hmid : WF (pit.insertPiece p) := insertPiece_WF pit p hwf hfit hnd hbelow
  show WF (if (completedRowsList (pit.insertPiece p)).isEmpty then pit.insertPiece p
    else (pit.insertPiece p).removeCompletedRows (completedRowsList (pit.insertPiece p)))
  by_cases he : (completedRowsList (pit.insertPiece p)).isEmpty
  · rw [if_pos he]
    exact hmid
  · rw [if_neg he]
    obtain ⟨m, hm⟩ := hcont
    have hk : 0 < (completedRowsList (pit.insertPiece p)).length := by
      cases h : completedRowsList (pit.insertPiece p) with
      | nil => rw [h] at he; simp at he
      | cons a t => simp
    exact (removeCompleted_WF _ m _ hmid hk hm).2.2

/-- Helper for C3: every state reachable under the amended side
conditions is fully well-formed. -/
theorem reachedA_WF : ∀ pit : Pit, ReachedA pit → WF pit := by
  intro pit h
  induction h with
  | nil => decide
  | step pit p h0 hfit hnd hne hbelow hcont ih =>
    exact drop_WF pit p ih hfit hnd hbelow hcont

/-- C3, amended.  The cache invariants — `rows[y]` equals the number of
occupied cells at height `y`, and `cols[x]` equals `1 + max occupied y`
in column `x` (0 when the column is empty) — hold in every state
reachable from the empty grid by locks of pieces with distinct,
non-empty cell lists that come to rest entirely below the top of the pit
and whose clears remove a contiguous block of rows.  (Without those side
conditions the claim fails; see the counterexample.) -/
theorem c3_amended (pit : Pit) (h : ReachedA pit) : RowsOK pit ∧ ColsOK pit :=
  ⟨(reachedA_WF pit h).2.2.2.1, (reachedA_WF pit h).2.2.2.2⟩

/-- C3, witness for the amended theorem: one domino locked into the empty
pit. -/
theorem c3_witness :
    ReachedA (c3state 1) ∧ (RowsOK (c3state 1) ∧ ColsOK (c3state 1)) :=
  ⟨ReachedA.step emptyPit vDom ReachedA.nil (by decide) (by decide) (by decide)
      (by decide) ⟨0, by decide⟩,
   c3_amended (c3state 1)
     (ReachedA.step emptyPit vDom ReachedA.nil (by decide) (by decide) (by decide)
       (by decide) ⟨0, by decide⟩)⟩

/-! ### C2 — effect of the clearing step on the occupancy -/

/-- C2, counterexample.  Locking a vertical `i` piece into `c2pit` (a
well-formed pit) completes exactly the two non-adjacent rows 1 and 3.
The uniform shift of `_removeCompletedRows` then moves the surviving
cells `(0,2)` and `(9,2)` (between the cleared rows) down by the full
clear count 2, where they collide with the surviving cells `(0,0)` and
`(9,0)` in the rebuilt key map: of 24 occupied cells only 2 remain, so
the count drops by 22, not by `k × WIDTH = 20`. -/
theorem c2_counterexample :
    WF c2pit ∧ c2piece.fits c2pit ∧
    (c2pit.drop c2piece).1 = 2 ∧
    completedRowsList (c2pit.insertPiece c2piece) = [1, 3] ∧
    (c2pit.insertPiece c2piece).cells.card = 24 ∧
    (c2pit.drop c2piece).2.cells.card = 2 ∧
    ¬ ((c2pit.drop c2piece).2.cells.card + (c2pit.drop c2piece).1 * WIDTH =
      (c2pit.insertPiece c2piece).cells.card) := by
  refine ⟨by decide, by decide, by decide, by decide, by decide, by decide, by decide⟩

/-- C2, amended.  When a lock on a well-formed pit completes `k > 0`
*contiguous* rows `[m, m+k)` (and the piece fits, has distinct cells and
rests below the top), the clearing step removes exactly `k × WIDTH`
occupied cells, every surviving cell strictly above the lowest cleared
row (equivalently, above the whole cleared band) has its `y` reduced by
exactly `k`, and every cell below all cleared rows keeps its coordinates
unchanged: the occupancy after clearing is exactly the below-band part
unioned with the above-band part shifted down by `k`. -/
theorem c2_amended (pit : Pit) (p : Piece) (m : ℕ)
    (hwf : WF pit) (hfit : p.fits pit) (hnd : p.cells.Nodup)
    (hbelow : ∀ c ∈ (gravityRest pit p).absCells, c.2 < (DEPTH : ℤ))
    (hcomp : completedRowsList (pit.insertPiece p) = List.range' m (pit.drop p).1)
    (hk : 0 < (pit.drop p).1) :
    ((pit.drop p).2.cells.card + (pit.drop p).1 * WIDTH =
      (pit.insertPiece p).cells.card) ∧
    ((pit.drop p).2.cells =
      (pit.insertPiece p).cells.filter (fun c => c.2 < (m : ℤ)) ∪
      ((pit.insertPiece p).cells.filter
        (fun c => (m : ℤ) + ((pit.drop p).1 : ℕ) ≤ c.2)).image
        (fun c => (c.1, c.2 - (((pit.drop p).1 : ℕ) : ℤ)))) := by
  have hmid : WF (pit.insertPiece p) := insertPiece_WF pit p hwf hfit hnd hbelow
  have hkdef : (pit.drop p).1 = (completedRowsList (pit.insertPiece p)).length := rfl
  have hne : ¬ (completedRowsList (pit.insertPiece p)).isEmpty := by
    rw [hkdef] at hk
    cases h : completedRowsList (pit.insertPiece p) with
    | nil => rw [h] at hk; simp at hk
    | cons a t => simp
  have hres : (pit.drop p).2 =
      (pit.insertPiece p).removeCompletedRows (completedRowsList (pit.insertPiece p)) := by
    show (if (completedRowsList (pit.insertPiece p)).isEmpty then pit.insertPiece p
      else (pit.insertPiece p).removeCompletedRows
        (completedRowsList (pit.insertPiece p))) = _
    rw [if_neg hne]
  have hspec := removeCompleted_WF (pit.insertPiece p) m (pit.drop p).1 hmid hk hcomp
  rw [← hres] at hspec
  exact ⟨hspec.2.1, hspec.1⟩

/-- C2, witness for the amended theorem: the lock of `dashAt95` into
`pitRow0` completes the single row 0 and removes exactly `WIDTH` cells. -/
theorem c2_witness :
    WF pitRow0 ∧
    ((pitRow0.drop dashAt95).2.cells.card + (pitRow0.drop dashAt95).1 * WIDTH =
      (pitRow0.insertPiece dashAt95).cells.card) :=
  ⟨by decide,
   (c2_amended pitRow0 dashAt95 0 (by decide) (by decide) (by decide) (by decide)
     (by decide) (by decide)).1⟩

/-! ### C9 — what the clone of a pit shares with the original -/

/-- Specification of the cell-cloning loop of `Pit.clone`: it allocates
only fresh cell objects (all clone refs are at or above the old
allocation bound), leaves every pre-existing cell object and the `XY`
and array stores untouched, and gives each fresh cell the *same* `XY`
reference as the cell it clones. -/
theorem cloneCells_spec :
    ∀ (cs : List ℕ) (h : Heap), (∀ c ∈ cs, c < h.nxtCell) →
      (cloneCells h cs).1.nxtCell = h.nxtCell + cs.length ∧
      (cloneCells h cs).1.xyv = h.xyv ∧
      (cloneCells h cs).1.arrv = h.arrv ∧
      (cloneCells h cs).1.nxtArr = h.nxtArr ∧
      (cloneCells h cs).2.length = cs.length ∧
      (∀ c, c < h.nxtCell → (cloneCells h cs).1.cellxy c = h.cellxy c) ∧
      (∀ e ∈ cs.zip (cloneCells h cs).2,
        h.nxtCell ≤ e.2 ∧ (cloneCells h cs).1.cellxy e.2 = h.cellxy e.1) ∧
      (∀ c2 ∈ (cloneCells h cs).2, h.nxtCell ≤ c2) := by
  intro cs
  induction cs with
  | nil =>
    intro h _
    refine ⟨by simp [cloneCells], rfl, rfl, rfl, rfl, fun c _ => rfl, ?_, ?_⟩
    · intro e he; simp [cloneCells] at he
    · intro c2 hc2; simp [cloneCells] at hc2
  | cons c cs ih =>
    intro h hlt
    have hstep : cloneCells h (c :: cs) =
        ((cloneCells (cloneCell h c).1 cs).1, (cloneCell h c).2 ::
          (cloneCells (cloneCell h c).1 cs).2) := rfl
    have hlt1 : ∀ w ∈ cs, w < (cloneCell h c).1.nxtCell := by
      intro w hw
      have := hlt w (List.mem_cons_of_mem _ hw)
      show w < h.nxtCell + 1
      omega
    obtain ⟨ih1, ih2, ih3, ih4, ih5, ih6, ih7, ih8⟩ := ih (cloneCell h c).1 hlt1
    have hn1 : (cloneCell h c).1.nxtCell = h.nxtCell + 1 := rfl
    have hcx : (cloneCell h c).1.cellxy =
        Function.update h.cellxy h.nxtCell (h.cellxy c) := rfl
    rw [hstep]
    refine ⟨?_, ih2, ih3, ih4, ?_, ?_, ?_, ?_⟩
    · dsimp only
      rw [ih1, hn1, List.length_cons]
      omega
    · dsimp only
      rw [List.length_cons, List.length_cons, ih5]
    · intro w hw
      dsimp only
      rw [ih6 w (by rw [hn1]; omega), hcx, Function.update_noteq (by omega)]
    · intro e he
      dsimp only at he ⊢
      rw [List.zip_cons_cons] at he
      rcases List.mem_cons.mp he with rfl | he
      · constructor
        · show h.nxtCell ≤ (cloneCell h c).2
          exact le_refl _
        · have h1 : (cloneCells (cloneCell h c).1 cs).1.cellxy (cloneCell h c).2 =
              (cloneCell h c).1.cellxy (cloneCell h c).2 := by
            apply ih6
            rw [hn1]
            show h.nxtCell < h.nxtCell + 1
            omega
          rw [h1, hcx]
          show Function.update h.cellxy h.nxtCell (h.cellxy c) h.nxtCell = h.cellxy c
          rw [Function.update_same]
      · have h2 := ih7 e he
        have hmem := (List.of_mem_zip he).1
        refine ⟨by rw [hn1] at h2; omega, ?_⟩
        rw [h2.2, hcx, Function.update_noteq]
        have := hlt e.1 (List.mem_cons_of_mem _ hmem)
        omega
    · intro c2 hc2
      dsimp only at hc2 ⊢
      rcases List.mem_cons.mp hc2 with rfl | hc2
      · show h.nxtCell ≤ h.nxtCell
        exact le_refl _
      · have := ih8 c2 hc2
        rw [hn1] at this
        omega

/-- C9, counterexample.  `Pit.clone` gives the cloned cell a fresh
`Cell` object but the *same* `XY` object (`Cell.clone` passes `this.xy`
to the new cell); mutating that coordinate object in place through the
clone's cell changes the coordinate observed through the original pit's
cell from `(1,2)` to `(5,5)`, contradicting the claim that mutating the
cells the clone contains leaves the original unchanged. -/
theorem c9_counterexample :
    (clonePit heap0 pitRefs0).2.cellRefs = [1] ∧
    heap0.cellPos 0 = (1, 2) ∧
    (((clonePit heap0 pitRefs0).1.writeXY
      ((clonePit heap0 pitRefs0).1.cellxy 1) (5, 5)).cellPos 0 = (5, 5)) ∧
    ((5, 5) : XY) ≠ (1, 2) := by
  refine ⟨by decide, by decide, by decide, by decide⟩

/-- C9, amended.  `Pit.clone` is independent at the level of the cell
*objects* and the `cols`/`rows` *arrays*: every cloned cell is a fresh
reference distinct from all original cells, cloning leaves the
original's cell fields untouched, re-assigning a clone cell's `xy`
field never changes any original cell's field, the two arrays are fresh
references holding copies of the original contents, and writing the
clone's arrays never changes the original's arrays.  However, each
cloned cell's `xy` field holds the *same* mutable `XY` reference as the
corresponding original cell (third conjunct), so in-place mutation of a
coordinate object is visible through both pits — the clone is not fully
independent (see the counterexample). -/
theorem c9_amended (h : Heap) (p : PitRefs)
    (hcells : ∀ c ∈ p.cellRefs, c < h.nxtCell)
    (hcols : p.colsRef < h.nxtArr) (hrows : p.rowsRef < h.nxtArr) :
    (∀ c2 ∈ (clonePit h p).2.cellRefs, ∀ c ∈ p.cellRefs, c2 ≠ c) ∧
    (∀ c ∈ p.cellRefs, (clonePit h p).1.cellxy c = h.cellxy c) ∧
    (∀ e ∈ p.cellRefs.zip (clonePit h p).2.cellRefs,
      (clonePit h p).1.cellxy e.2 = h.cellxy e.1) ∧
    (∀ c2 ∈ (clonePit h p).2.cellRefs, ∀ r, ∀ c ∈ p.cellRefs,
      ((clonePit h p).1.writeCellXY c2 r).cellxy c = (clonePit h p).1.cellxy c) ∧
    ((clonePit h p).2.colsRef ≠ p.colsRef ∧ (clonePit h p).2.rowsRef ≠ p.rowsRef) ∧
    ((clonePit h p).1.arrv (clonePit h p).2.colsRef = h.arrv p.colsRef ∧
      (clonePit h p).1.arrv (clonePit h p).2.rowsRef = h.arrv p.rowsRef) ∧
    (∀ v : List ℤ,
      ((clonePit h p).1.writeArr (clonePit h p).2.colsRef v).arrv p.colsRef =
        (clonePit h p).1.arrv p.colsRef ∧
      ((clonePit h p).1.writeArr (clonePit h p).2.rowsRef v).arrv p.rowsRef =
        (clonePit h p).1.arrv p.rowsRef) := by
  have h2eq : (clonePit h p).1 =
      (cloneCells (copyArr (copyArr h p.colsRef).1 p.rowsRef).1 p.cellRefs).1 := rfl
  have hrefs : (clonePit h p).2.cellRefs =
      (cloneCells (copyArr (copyArr h p.colsRef).1 p.rowsRef).1 p.cellRefs).2 := rfl
  have hA : (copyArr (copyArr h p.colsRef).1 p.rowsRef).1.nxtCell = h.nxtCell := rfl
  have hAcx : (copyArr (copyArr h p.colsRef).1 p.rowsRef).1.cellxy = h.cellxy := rfl
  obtain ⟨s1, s2, s3, s4, s5, s6, s7, s8⟩ :=
    cloneCells_spec p.cellRefs (copyArr (copyArr h p.colsRef).1 p.rowsRef).1
      (by rw [hA]; exact hcells)
  rw [hA] at s8
  rw [hAcx] at s6 s7
  refine ⟨?_, ?_, ?_, ?_, ?_, ?_, ?_⟩
  · intro c2 hc2 c hc
    rw [hrefs] at hc2
    have hle : h.nxtCell ≤ c2 := s8 c2 hc2
    have := hcells c hc
    omega
  · intro c hc
    rw [h2eq, s6 c (by rw [hA]; exact hcells c hc)]
  · intro e he
    rw [hrefs] at he
    rw [h2eq]
    exact (s7 e he).2
  · intro c2 hc2 r c hc
    rw [hrefs] at hc2
    have hle : h.nxtCell ≤ c2 := s8 c2 hc2
    show Function.update (clonePit h p).1.cellxy c2 r c = (clonePit h p).1.cellxy c
    apply Function.update_noteq
    have := hcells c hc
    omega
  · constructor
    · show h.nxtArr ≠ p.colsRef
      omega
    · show h.nxtArr + 1 ≠ p.rowsRef
      omega
  · constructor
    · rw [h2eq, s3]
      show (Function.update (Function.update h.arrv h.nxtArr (h.arrv p.colsRef))
        (h.nxtArr + 1) ((copyArr h p.colsRef).1.arrv p.rowsRef)) h.nxtArr = _
      rw [Function.update_noteq (by omega), Function.update_same]
    · rw [h2eq, s3]
      show (Function.update (Function.update h.arrv h.nxtArr (h.arrv p.colsRef))
        (h.nxtArr + 1) ((copyArr h p.colsRef).1.arrv p.rowsRef)) (h.nxtArr + 1) = _
      rw [Function.update_same]
      show Function.update h.arrv h.nxtArr (h.arrv p.colsRef) p.rowsRef = _
      rw [Function.update_noteq (by omega)]
  · intro v
    constructor
    · show Function.update (clonePit h p).1.arrv (clonePit h p).2.colsRef v p.colsRef = _
      apply Function.update_noteq
      show p.colsRef ≠ h.nxtArr
      omega
    · show Function.update (clonePit h p).1.arrv (clonePit h p).2.rowsRef v p.rowsRef = _
      apply Function.update_noteq
      show p.rowsRef ≠ h.nxtArr + 1
      omega

/-- C9, witness for the amended theorem: on the one-cell heap the
clone's cell reference differs from the original's. -/
theorem c9_witness :
    (∀ c ∈ pitRefs0.cellRefs, c < heap0.nxtCell) ∧
    pitRefs0.colsRef < heap0.nxtArr ∧ pitRefs0.rowsRef < heap0.nxtArr ∧
    (∀ c2 ∈ (clonePit heap0 pitRefs0).2.cellRefs, ∀ c ∈ pitRefs0.cellRefs, c2 ≠ c) := by
  refine ⟨by decide, by decide, by decide, ?_⟩
  exact (c9_amended heap0 pitRefs0 (by decide) (by decide) (by decide)).1

end Game
